import Mathlib

set_option maxRecDepth 8000

/-!
Verification development for the game-news digest bot (src/main.py).
Python strings are modelled as lists of characters (code points), so that
Python's len / slicing / concatenation correspond to List.length / take /
append.  Pure helper functions of the source are translated one-to-one;
network effects are modelled by explicit oracle parameters.
-/

namespace GameNewsBot

/-- Python strings, modelled as lists of Unicode code points. -/
abbrev PyStr := List Char

/-- Turn a Lean string literal into the model's string type. -/
def pstr (s : String) : PyStr := s.data

/-- Model of Python's whitespace class (used both by str.strip and by the
regular-expression class backslash-s): ASCII whitespace, the C1 controls
that Python treats as space, and the common Unicode space characters. -/
def isPySpace (c : Char) : Bool :=
  c = ' ' || c = '\t' || c = '\n' || c = '\r' || c = '\x0b' || c = '\x0c' ||
  ('\x1c' ≤ c && c ≤ '\x1f') || c = '\x85' || c = '\xa0' ||
  c = '\u1680' || ('\u2000' ≤ c && c ≤ '\u200a') ||
  c = '\u2028' || c = '\u2029' || c = '\u202f' || c = '\u205f' || c = '\u3000'

/-- Remove trailing whitespace (the tail half of Python str.strip()). -/
def dropTrailingWs (s : PyStr) : PyStr := (s.reverse.dropWhile isPySpace).reverse

/-- Model of Python str.strip(): remove leading and trailing whitespace. -/
def pyStrip (s : PyStr) : PyStr := dropTrailingWs (s.dropWhile isPySpace)

/-- Model of re.sub(r"backslash-s+", " ", s): every maximal whitespace run
becomes a single space.  The Boolean records whether the previous character
belonged to a whitespace run (so no second space is emitted for it). -/
def collapseWsAux (prevSp : Bool) : PyStr → PyStr
  | [] => []
  | c :: cs =>
    if isPySpace c then
      if prevSp then collapseWsAux true cs else ' ' :: collapseWsAux true cs
    else c :: collapseWsAux false cs

/-- Model of _clean_text from src/main.py: strip the ends, then collapse
every whitespace run to a single space. -/
def clean_text (s : PyStr) : PyStr := collapseWsAux false (pyStrip s)

/-- Model of _truncate from src/main.py: keep the string when it fits in n
characters, otherwise cut to n-1 characters and append a horizontal
ellipsis. -/
def truncatePy (s : PyStr) (n : Nat) : PyStr :=
  if s.length ≤ n then s else s.take (n - 1) ++ ['…']

/-- TITLE_MAX from src/main.py. -/
def TITLE_MAX : Nat := 120

/-- SNIPPET_MAX from src/main.py. -/
def SNIPPET_MAX : Nat := 180

/-- Scan for the first greater-than sign and return the characters after
it (supporting the model of the tag pattern of _strip_html). -/
def dropThroughGt : PyStr → Option PyStr
  | [] => none
  | c :: cs => if c = '>' then some cs else dropThroughGt cs

/-- One attempted match of the regular expression less-than [^>]+
greater-than, applied just after a less-than sign: it succeeds exactly when
at least one non-greater-than character is followed by a greater-than sign,
and returns the remainder after that sign. -/
def takeAfterGt : PyStr → Option PyStr
  | [] => none
  | c :: cs => if c = '>' then none else dropThroughGt cs

theorem dropThroughGt_length : ∀ {l r : PyStr}, dropThroughGt l = some r → r.length < l.length := by
  intro l
  induction l with
  | nil => intro r h; simp [dropThroughGt] at h
  | cons c cs ih =>
    intro r h
    by_cases hc : c = '>'
    · simp [dropThroughGt, hc] at h
      subst h; simp
    · simp [dropThroughGt, hc] at h
      exact Nat.lt_trans (ih h) (Nat.lt_succ_self _)

theorem takeAfterGt_length : ∀ {l r : PyStr}, takeAfterGt l = some r → r.length < l.length := by
  intro l r h
  cases l with
  | nil => simp [takeAfterGt] at h
  | cons c cs =>
    by_cases hc : c = '>'
    · simp [takeAfterGt, hc] at h
    · simp [takeAfterGt, hc] at h
      exact Nat.lt_trans (dropThroughGt_length h) (Nat.lt_succ_self _)

/-- Fuelled scan for _strip_html; the fuel only serves structural
termination and is irrelevant whenever it is at least the input length. -/
def stripHtmlF : Nat → PyStr → PyStr
  | 0, l => l
  | _ + 1, [] => []
  | fuel + 1, c :: cs =>
    if c = '<' then
      match takeAfterGt cs with
      | some rest => stripHtmlF fuel rest
      | none => c :: stripHtmlF fuel cs
    else c :: stripHtmlF fuel cs

/-- Model of _strip_html from src/main.py, a global re.sub of the pattern
less-than [^>]+ greater-than with the empty string: a left-to-right scan
that removes each leftmost tag-shaped span and resumes after it. -/
def strip_html (l : PyStr) : PyStr := stripHtmlF l.length l

theorem stripHtmlF_congr : ∀ (n : Nat), ∀ (m : Nat) (l : PyStr), l.length ≤ n → l.length ≤ m →
    stripHtmlF n l = stripHtmlF m l := by
  intro n
  induction n with
  | zero =>
    intro m l hn _
    have : l = [] := by cases l <;> simp_all
    subst this
    cases m <;> rfl
  | succ n ih =>
    intro m l hn hm
    cases l with
    | nil => cases m <;> rfl
    | cons c cs =>
      cases m with
      | zero => simp at hm
      | succ m =>
        simp only [stripHtmlF]
        have hcs : cs.length ≤ n := by simpa using hn
        have hcs' : cs.length ≤ m := by simpa using hm
        by_cases hc : c = '<'
        · rw [if_pos hc, if_pos hc]
          cases htk : takeAfterGt cs with
          | some rest =>
            have hr := Nat.le_of_lt (takeAfterGt_length htk)
            exact ih m rest (le_trans hr hcs) (le_trans hr hcs')
          | none =>
            rw [ih m cs hcs hcs']
        · rw [if_neg hc, if_neg hc, ih m cs hcs hcs']

/-- Title cleanup as performed in fetch_track of src/main.py. -/
def titleClean (s : PyStr) : PyStr := truncatePy (clean_text s) TITLE_MAX

/-- Snippet cleanup as performed in fetch_track of src/main.py. -/
def snippetClean (s : PyStr) : PyStr := truncatePy (clean_text (strip_html s)) SNIPPET_MAX

/-- Strings in collapsed normal form: every whitespace character is a
plain space, and no space follows a space (nor, when the flag is true, the
imaginary space just before the string). -/
def collapsedB (b : Bool) : PyStr → Bool
  | [] => true
  | c :: cs =>
    if isPySpace c then (decide (c = ' ') && !b) && collapsedB true cs
    else collapsedB false cs

theorem collapse_of_collapsedB : ∀ (l : PyStr) (b : Bool), collapsedB b l = true → collapseWsAux b l = l := by
  intro l
  induction l with
  | nil => intro b _; rfl
  | cons c cs ih =>
    intro b h
    by_cases hc : isPySpace c = true
    · simp [collapsedB, hc] at h
      obtain ⟨⟨hsp, hb⟩, hrest⟩ := h
      subst hb hsp
      simp [collapseWsAux, hc, ih true hrest]
    · simp [collapsedB, hc] at h
      simp [collapseWsAux, hc, ih false h]

theorem collapsedB_collapse : ∀ (l : PyStr) (b : Bool), collapsedB b (collapseWsAux b l) = true := by
  intro l
  induction l with
  | nil => intro b; rfl
  | cons c cs ih =>
    intro b
    by_cases hc : isPySpace c = true
    · cases b with
      | true => simpa [collapseWsAux, hc] using ih true
      | false =>
        simp [collapseWsAux, hc, collapsedB]
        exact ih true
    · simp [collapseWsAux, hc, collapsedB]
      exact ih false

theorem collapsedB_take : ∀ (l : PyStr) (b : Bool) (k : Nat), collapsedB b l = true → collapsedB b (l.take k) = true := by
  intro l
  induction l with
  | nil => intro b k _; simp [collapsedB]
  | cons c cs ih =>
    intro b k h
    cases k with
    | zero => simp [collapsedB]
    | succ k =>
      by_cases hc : isPySpace c = true
      · simp [collapsedB, hc] at h ⊢
        exact ⟨h.1, ih true k h.2⟩
      · simp [collapsedB, hc] at h ⊢
        exact ih false k h

theorem collapsedB_concat : ∀ (l : PyStr) (b : Bool) (d : Char), collapsedB b l = true → isPySpace d = false → collapsedB b (l ++ [d]) = true := by
  intro l
  induction l with
  | nil => intro b d _ hd; simp [collapsedB, hd]
  | cons c cs ih =>
    intro b d h hd
    by_cases hc : isPySpace c = true
    · simp [collapsedB, hc] at h ⊢
      exact ⟨h.1, ih true d h.2 hd⟩
    · simp [collapsedB, hc] at h ⊢
      exact ih false d h hd

theorem dropWhile_head_false {p : Char → Bool} : ∀ {l c t}, List.dropWhile p l = c :: t → p c = false := by
  intro l
  induction l with
  | nil => intro c t h; simp at h
  | cons a as ih =>
    intro c t h
    rw [List.dropWhile_cons] at h
    by_cases ha : p a = true
    · rw [if_pos ha] at h; exact ih h
    · rw [if_neg ha] at h
      cases h
      simpa using ha

theorem dropTrailingWs_decomp (l : PyStr) : ∃ u, l = dropTrailingWs l ++ u := by
  refine ⟨(l.reverse.takeWhile isPySpace).reverse, ?_⟩
  have h := List.takeWhile_append_dropWhile (p := isPySpace) (l := l.reverse)
  have h2 := congrArg List.reverse h
  rw [List.reverse_append, List.reverse_reverse] at h2
  exact h2.symm

theorem getLast?_some_of_ne_nil : ∀ (l : PyStr), l ≠ [] → ∃ c, l.getLast? = some c := by
  intro l
  induction l with
  | nil => intro h; exact absurd rfl h
  | cons a as ih =>
    intro _
    cases as with
    | nil => exact ⟨a, rfl⟩
    | cons b bs =>
      obtain ⟨c, hc⟩ := ih (by simp)
      exact ⟨c, by rw [List.getLast?_cons_cons]; exact hc⟩

theorem pyStrip_head : ∀ {s : PyStr} {c : Char} {t : PyStr}, pyStrip s = c :: t → isPySpace c = false := by
  intro s c t h
  obtain ⟨u, hu⟩ := dropTrailingWs_decomp (s.dropWhile isPySpace)
  have h' : dropTrailingWs (List.dropWhile isPySpace s) = c :: t := h
  rw [h'] at hu
  exact dropWhile_head_false hu

theorem pyStrip_getLast : ∀ {s : PyStr} {c : Char}, (pyStrip s).getLast? = some c → isPySpace c = false := by
  intro s c h
  rw [show pyStrip s = ((s.dropWhile isPySpace).reverse.dropWhile isPySpace).reverse from rfl] at h
  rw [List.getLast?_reverse] at h
  cases hd : List.dropWhile isPySpace (s.dropWhile isPySpace).reverse with
  | nil => rw [hd] at h; simp at h
  | cons d ds =>
    rw [hd] at h
    simp at h
    rw [← h]
    exact dropWhile_head_false hd

theorem pyStrip_eq_self {l : PyStr}
    (h1 : ∀ c t, l = c :: t → isPySpace c = false)
    (h2 : ∀ c, l.getLast? = some c → isPySpace c = false) : pyStrip l = l := by
  cases l with
  | nil => rfl
  | cons c cs =>
    have hc : isPySpace c = false := h1 c cs rfl
    rw [show pyStrip (c :: cs) = dropTrailingWs ((c :: cs).dropWhile isPySpace) from rfl]
    rw [List.dropWhile_cons, if_neg (by simp [hc])]
    show ((c :: cs).reverse.dropWhile isPySpace).reverse = c :: cs
    cases hr : (c :: cs).reverse with
    | nil => exact absurd (congrArg List.length hr) (by simp)
    | cons d ds =>
      have hdlast : (c :: cs).getLast? = some d := by
        rw [← List.head?_reverse, hr]; rfl
      have hd : isPySpace d = false := h2 d hdlast
      rw [List.dropWhile_cons, if_neg (by simp [hd])]
      rw [← hr, List.reverse_reverse]

theorem collapse_getLast : ∀ (l : PyStr) (b : Bool) {c : Char}, l.getLast? = some c → isPySpace c = false → (collapseWsAux b l).getLast? = some c := by
  intro l
  induction l with
  | nil => intro b c h _; simp at h
  | cons x xs ih =>
    intro b c h hc
    cases xs with
    | nil =>
      simp at h
      subst h
      simp [collapseWsAux, hc]
    | cons y ys =>
      rw [List.getLast?_cons_cons] at h
      by_cases hx : isPySpace x = true
      · cases b with
        | true =>
          rw [show collapseWsAux true (x :: y :: ys) = collapseWsAux true (y :: ys) by
            simp [collapseWsAux, hx]]
          exact ih true h hc
        | false =>
          rw [show collapseWsAux false (x :: y :: ys) = ' ' :: collapseWsAux true (y :: ys) by
            simp [collapseWsAux, hx]]
          have hrec := ih true h hc
          cases hL : collapseWsAux true (y :: ys) with
          | nil => rw [hL] at hrec; simp at hrec
          | cons z zs => rw [hL] at hrec; rw [List.getLast?_cons_cons]; exact hrec
      · rw [show collapseWsAux b (x :: y :: ys) = x :: collapseWsAux false (y :: ys) by
          simp [collapseWsAux, hx]]
        have hrec := ih false h hc
        cases hL : collapseWsAux false (y :: ys) with
        | nil => rw [hL] at hrec; simp at hrec
        | cons z zs => rw [hL] at hrec; rw [List.getLast?_cons_cons]; exact hrec

theorem clean_text_head : ∀ {s : PyStr} {c : Char} {t : PyStr}, clean_text s = c :: t → isPySpace c = false := by
  intro s c t h
  rw [show clean_text s = collapseWsAux false (pyStrip s) from rfl] at h
  cases hp : pyStrip s with
  | nil => rw [hp] at h; simp [collapseWsAux] at h
  | cons d ds =>
    have hd : isPySpace d = false := pyStrip_head hp
    rw [hp] at h
    rw [show collapseWsAux false (d :: ds) = d :: collapseWsAux false ds by
      simp [collapseWsAux, hd]] at h
    cases h
    exact hd

theorem clean_text_getLast : ∀ {s : PyStr} {c : Char}, (clean_text s).getLast? = some c → isPySpace c = false := by
  intro s c h
  rw [show clean_text s = collapseWsAux false (pyStrip s) from rfl] at h
  cases hp : pyStrip s with
  | nil => rw [hp] at h; simp [collapseWsAux] at h
  | cons d ds =>
    obtain ⟨e, he⟩ := getLast?_some_of_ne_nil (d :: ds) (by simp)
    have hsp : isPySpace e = false := pyStrip_getLast (by rw [hp]; exact he)
    have := collapse_getLast (d :: ds) false he hsp
    rw [hp, this] at h
    cases h
    exact hsp

theorem cleanTrunc_fix (m : PyStr)
    (hhead : ∀ c t, m = c :: t → isPySpace c = false)
    (hlast : ∀ c, m.getLast? = some c → isPySpace c = false)
    (hcol : collapsedB false m = true) (n : Nat) (hn : 2 ≤ n) :
    clean_text (truncatePy m n) = truncatePy m n ∧ (truncatePy m n).length ≤ n := by
  by_cases hlen : m.length ≤ n
  · rw [show truncatePy m n = m from if_pos hlen]
    refine ⟨?_, hlen⟩
    show collapseWsAux false (pyStrip m) = m
    rw [pyStrip_eq_self hhead hlast]
    exact collapse_of_collapsedB m false hcol
  · rw [show truncatePy m n = m.take (n - 1) ++ ['…'] from if_neg hlen]
    have hmlen : n < m.length := Nat.lt_of_not_le hlen
    have htklen : (m.take (n - 1)).length = n - 1 := by
      rw [List.length_take]; omega
    have hcol' : collapsedB false (m.take (n - 1) ++ ['…']) = true :=
      collapsedB_concat _ false '…' (collapsedB_take m false (n - 1) hcol) (by decide)
    constructor
    · show collapseWsAux false (pyStrip (m.take (n - 1) ++ ['…'])) = _
      rw [pyStrip_eq_self ?hh ?hl]
      case hh =>
        intro c t hct
        obtain ⟨d, ms, rfl⟩ : ∃ d ms, m = d :: ms := by
          cases m with
          | nil => simp at hmlen
          | cons d ms => exact ⟨d, ms, rfl⟩
        obtain ⟨k, hk⟩ : ∃ k, n - 1 = k + 1 := ⟨n - 2, by omega⟩
        rw [hk, List.take_succ_cons] at hct
        have : d = c := by simpa using congrArg List.head? hct
        subst this
        exact hhead d ms rfl
      case hl =>
        intro c hc
        rw [List.getLast?_concat] at hc
        cases hc
        decide
      exact collapse_of_collapsedB _ false hcol'
    · rw [List.length_append, htklen]
      simp
      omega

theorem titleClean_idem (s : PyStr) : titleClean (titleClean s) = titleClean s := by
  have hfix := cleanTrunc_fix (clean_text s)
    (fun _ _ h => clean_text_head h) (fun _ h => clean_text_getLast h)
    (collapsedB_collapse (pyStrip s) false) TITLE_MAX (by decide)
  show truncatePy (clean_text (truncatePy (clean_text s) TITLE_MAX)) TITLE_MAX = titleClean s
  rw [hfix.1]
  exact (if_pos hfix.2 :
    truncatePy (truncatePy (clean_text s) TITLE_MAX) TITLE_MAX = truncatePy (clean_text s) TITLE_MAX)

theorem dropThroughGt_eq_none : ∀ {l : PyStr}, dropThroughGt l = none ↔ '>' ∉ l := by
  intro l
  induction l with
  | nil => simp [dropThroughGt]
  | cons c cs ih =>
    by_cases hc : c = '>'
    · subst hc; simp [dropThroughGt]
    · simp only [dropThroughGt, if_neg hc, List.mem_cons, ih]
      constructor
      · intro h hmem
        rcases hmem with h1 | h2
        · exact hc h1.symm
        · exact h h2
      · intro h hmem
        exact h (Or.inr hmem)

theorem takeAfterGt_none_of_not_mem : ∀ {l : PyStr}, '>' ∉ l → takeAfterGt l = none := by
  intro l h
  cases l with
  | nil => rfl
  | cons c cs =>
    have hc : ¬ c = '>' := fun hh => h (by simp [hh])
    simp only [takeAfterGt, if_neg hc]
    exact dropThroughGt_eq_none.mpr (fun hm => h (List.mem_cons_of_mem _ hm))

theorem takeAfterGt_none_cases : ∀ {l : PyStr}, takeAfterGt l = none →
    l = [] ∨ (∃ t, l = '>' :: t) ∨ '>' ∉ l := by
  intro l h
  cases l with
  | nil => exact Or.inl rfl
  | cons c cs =>
    by_cases hc : c = '>'
    · exact Or.inr (Or.inl ⟨cs, by rw [hc]⟩)
    · refine Or.inr (Or.inr ?_)
      simp only [takeAfterGt, if_neg hc] at h
      intro hm
      rcases List.mem_cons.mp hm with h1 | h2
      · exact hc h1.symm
      · exact absurd h2 (dropThroughGt_eq_none.mp h)

theorem takeAfterGt_none_append : ∀ {l₁ l₂ : PyStr}, takeAfterGt (l₁ ++ l₂) = none → takeAfterGt l₁ = none := by
  intro l₁ l₂ h
  rcases takeAfterGt_none_cases h with h0 | ⟨t, ht⟩ | hm
  · have : l₁ = [] := by cases l₁ <;> simp_all
    rw [this]; rfl
  · cases l₁ with
    | nil => rfl
    | cons c cs =>
      have hc : c = '>' := by simpa using congrArg List.head? ht
      rw [hc]; rfl
  · exact takeAfterGt_none_of_not_mem (fun hmem => hm (List.mem_append_left _ hmem))

theorem takeAfterGt_none_concat : ∀ {l : PyStr} {d : Char}, ¬ d = '>' → takeAfterGt l = none →
    takeAfterGt (l ++ [d]) = none := by
  intro l d hd h
  rcases takeAfterGt_none_cases h with h0 | ⟨t, ht⟩ | hm
  · subst h0; simp [takeAfterGt, if_neg hd, dropThroughGt]
  · subst ht; rfl
  · refine takeAfterGt_none_of_not_mem ?_
    intro hmem
    rcases List.mem_append.mp hmem with h1 | h2
    · exact hm h1
    · simp at h2; exact hd h2.symm

/-- Strings containing no tag-shaped span; stripping HTML from such a
string is the identity. -/
def tagFree : PyStr → Bool
  | [] => true
  | c :: cs => (if c = '<' then (takeAfterGt cs).isNone else true) && tagFree cs

theorem strip_html_cons_lt_some {cs rest : PyStr} (h : takeAfterGt cs = some rest) :
    strip_html ('<' :: cs) = strip_html rest := by
  show stripHtmlF (cs.length + 1) ('<' :: cs) = stripHtmlF rest.length rest
  simp only [stripHtmlF, h, eq_self_iff_true, if_true]
  exact stripHtmlF_congr cs.length rest.length rest (Nat.le_of_lt (takeAfterGt_length h)) le_rfl

theorem strip_html_cons_lt_none {cs : PyStr} (h : takeAfterGt cs = none) :
    strip_html ('<' :: cs) = '<' :: strip_html cs := by
  show stripHtmlF (cs.length + 1) ('<' :: cs) = '<' :: stripHtmlF cs.length cs
  simp only [stripHtmlF, h, eq_self_iff_true, if_true]

theorem strip_html_cons_ne {c : Char} {cs : PyStr} (h : ¬ c = '<') :
    strip_html (c :: cs) = c :: strip_html cs := by
  show stripHtmlF (cs.length + 1) (c :: cs) = c :: stripHtmlF cs.length cs
  simp only [stripHtmlF, if_neg h]

theorem strip_html_nil : strip_html [] = [] := rfl

theorem dropThroughGt_mem : ∀ {l r : PyStr}, dropThroughGt l = some r → ∀ a ∈ r, a ∈ l := by
  intro l
  induction l with
  | nil => intro r h; simp [dropThroughGt] at h
  | cons c cs ih =>
    intro r h a ha
    by_cases hc : c = '>'
    · simp only [dropThroughGt, if_pos hc] at h
      cases h
      exact List.mem_cons_of_mem _ ha
    · simp only [dropThroughGt, if_neg hc] at h
      exact List.mem_cons_of_mem _ (ih h a ha)

theorem takeAfterGt_mem : ∀ {l r : PyStr}, takeAfterGt l = some r → ∀ a ∈ r, a ∈ l := by
  intro l r h a ha
  cases l with
  | nil => simp [takeAfterGt] at h
  | cons c cs =>
    by_cases hc : c = '>'
    · simp [takeAfterGt, if_pos hc] at h
    · simp only [takeAfterGt, if_neg hc] at h
      exact List.mem_cons_of_mem _ (dropThroughGt_mem h a ha)

theorem strip_html_mem_aux : ∀ (n : Nat) (l : PyStr), l.length ≤ n → ∀ a ∈ strip_html l, a ∈ l := by
  intro n
  induction n with
  | zero =>
    intro l hl a ha
    have hnil : l = [] := by cases l <;> simp_all
    subst hnil
    rw [strip_html_nil] at ha
    simp at ha
  | succ n ih =>
    intro l hl a ha
    cases l with
    | nil =>
      rw [strip_html_nil] at ha
      simp at ha
    | cons c cs =>
      have hcs : cs.length ≤ n := by simpa using hl
      by_cases hc : c = '<'
      · subst hc
        cases htk : takeAfterGt cs with
        | some rest =>
          rw [strip_html_cons_lt_some htk] at ha
          have hr : rest.length ≤ n := le_trans (Nat.le_of_lt (takeAfterGt_length htk)) hcs
          exact List.mem_cons_of_mem _ (takeAfterGt_mem htk a (ih rest hr a ha))
        | none =>
          rw [strip_html_cons_lt_none htk] at ha
          rcases List.mem_cons.mp ha with h1 | h2
          · exact List.mem_cons.mpr (Or.inl h1)
          · exact List.mem_cons_of_mem _ (ih cs hcs a h2)
      · rw [strip_html_cons_ne hc] at ha
        rcases List.mem_cons.mp ha with h1 | h2
        · exact List.mem_cons.mpr (Or.inl h1)
        · exact List.mem_cons_of_mem _ (ih cs hcs a h2)

theorem strip_html_mem {l : PyStr} {a : Char} (h : a ∈ strip_html l) : a ∈ l :=
  strip_html_mem_aux l.length l le_rfl a h

theorem tagFree_strip_html_aux : ∀ (n : Nat) (l : PyStr), l.length ≤ n → tagFree (strip_html l) = true := by
  intro n
  induction n with
  | zero =>
    intro l hl
    have hnil : l = [] := by cases l <;> simp_all
    subst hnil
    rw [strip_html_nil]; rfl
  | succ n ih =>
    intro l hl
    cases l with
    | nil => rw [strip_html_nil]; rfl
    | cons c cs =>
      have hcs : cs.length ≤ n := by simpa using hl
      by_cases hc : c = '<'
      · subst hc
        cases htk : takeAfterGt cs with
        | some rest =>
          rw [strip_html_cons_lt_some htk]
          exact ih rest (le_trans (Nat.le_of_lt (takeAfterGt_length htk)) hcs)
        | none =>
          rw [strip_html_cons_lt_none htk]
          simp only [tagFree, eq_self_iff_true, if_true, Bool.and_eq_true]
          refine ⟨?_, ih cs hcs⟩
          rw [Option.isNone_iff_eq_none]
          rcases takeAfterGt_none_cases htk with h0 | ⟨t, ht⟩ | hm
          · subst h0; rw [strip_html_nil]; rfl
          · subst ht
            rw [strip_html_cons_ne (by decide)]
            rfl
          · exact takeAfterGt_none_of_not_mem (fun hmem => hm (strip_html_mem hmem))
      · rw [strip_html_cons_ne hc]
        simp only [tagFree, if_neg hc, Bool.and_eq_true]
        exact ⟨trivial, ih cs hcs⟩

theorem tagFree_strip_html (l : PyStr) : tagFree (strip_html l) = true :=
  tagFree_strip_html_aux l.length l le_rfl

theorem strip_html_of_tagFree : ∀ {l : PyStr}, tagFree l = true → strip_html l = l := by
  intro l
  induction l with
  | nil => intro _; exact strip_html_nil
  | cons c cs ih =>
    intro h
    simp only [tagFree, Bool.and_eq_true] at h
    obtain ⟨h1, h2⟩ := h
    by_cases hc : c = '<'
    · subst hc
      rw [if_pos rfl, Option.isNone_iff_eq_none] at h1
      rw [strip_html_cons_lt_none h1, ih h2]
    · rw [strip_html_cons_ne hc, ih h2]

theorem tagFree_append_left : ∀ {l₁ l₂ : PyStr}, tagFree (l₁ ++ l₂) = true → tagFree l₁ = true := by
  intro l₁
  induction l₁ with
  | nil => intro l₂ _; rfl
  | cons c cs ih =>
    intro l₂ h
    simp only [List.cons_append, tagFree, Bool.and_eq_true] at h ⊢
    obtain ⟨h1, h2⟩ := h
    refine ⟨?_, ih h2⟩
    by_cases hc : c = '<'
    · rw [if_pos hc] at h1 ⊢
      rw [Option.isNone_iff_eq_none] at h1 ⊢
      exact takeAfterGt_none_append h1
    · rw [if_neg hc]

theorem tagFree_dropWhile (p : Char → Bool) : ∀ {l : PyStr}, tagFree l = true → tagFree (l.dropWhile p) = true := by
  intro l
  induction l with
  | nil => intro _; rfl
  | cons c cs ih =>
    intro h
    simp only [tagFree, Bool.and_eq_true] at h
    rw [List.dropWhile_cons]
    by_cases hp : p c = true
    · rw [if_pos hp]
      exact ih h.2
    · rw [if_neg hp]
      simp only [tagFree, Bool.and_eq_true]
      exact h

theorem tagFree_dropTrailingWs {l : PyStr} (h : tagFree l = true) : tagFree (dropTrailingWs l) = true := by
  obtain ⟨u, hu⟩ := dropTrailingWs_decomp l
  rw [hu] at h
  exact tagFree_append_left h

theorem mem_collapse : ∀ {l : PyStr} {b : Bool} {a : Char}, a ∈ collapseWsAux b l → a = ' ' ∨ a ∈ l := by
  intro l
  induction l with
  | nil => intro b a ha; simp [collapseWsAux] at ha
  | cons c cs ih =>
    intro b a ha
    by_cases hsp : isPySpace c = true
    · cases b with
      | true =>
        rw [show collapseWsAux true (c :: cs) = collapseWsAux true cs from by simp [collapseWsAux, hsp]] at ha
        rcases ih ha with h1 | h2
        · exact Or.inl h1
        · exact Or.inr (List.mem_cons_of_mem _ h2)
      | false =>
        rw [show collapseWsAux false (c :: cs) = ' ' :: collapseWsAux true cs from by simp [collapseWsAux, hsp]] at ha
        rcases List.mem_cons.mp ha with h1 | h2
        · exact Or.inl h1
        · rcases ih h2 with h3 | h4
          · exact Or.inl h3
          · exact Or.inr (List.mem_cons_of_mem _ h4)
    · rw [show collapseWsAux b (c :: cs) = c :: collapseWsAux false cs from by simp [collapseWsAux, hsp]] at ha
      rcases List.mem_cons.mp ha with h1 | h2
      · exact Or.inr (List.mem_cons.mpr (Or.inl h1))
      · rcases ih h2 with h3 | h4
        · exact Or.inl h3
        · exact Or.inr (List.mem_cons_of_mem _ h4)

theorem tagFree_collapse : ∀ {l : PyStr} {b : Bool}, tagFree l = true → tagFree (collapseWsAux b l) = true := by
  intro l
  induction l with
  | nil => intro b _; rfl
  | cons c cs ih =>
    intro b h
    simp only [tagFree, Bool.and_eq_true] at h
    obtain ⟨h1, h2⟩ := h
    by_cases hsp : isPySpace c = true
    · cases b with
      | true =>
        rw [show collapseWsAux true (c :: cs) = collapseWsAux true cs from by simp [collapseWsAux, hsp]]
        exact ih h2
      | false =>
        rw [show collapseWsAux false (c :: cs) = ' ' :: collapseWsAux true cs from by simp [collapseWsAux, hsp]]
        simp only [tagFree, Bool.and_eq_true]
        exact ⟨by rw [if_neg (by decide)], ih h2⟩
    · rw [show collapseWsAux b (c :: cs) = c :: collapseWsAux false cs from by simp [collapseWsAux, hsp]]
      simp only [tagFree, Bool.and_eq_true]
      refine ⟨?_, ih h2⟩
      by_cases hc : c = '<'
      · rw [if_pos hc] at h1 ⊢
        rw [Option.isNone_iff_eq_none] at h1 ⊢
        rcases takeAfterGt_none_cases h1 with h0 | ⟨t, ht⟩ | hm
        · subst h0; rfl
        · subst ht
          rw [show collapseWsAux false ('>' :: t) = '>' :: collapseWsAux false t from by
            simp [collapseWsAux, show isPySpace '>' = false from by decide]]
          rfl
        · refine takeAfterGt_none_of_not_mem ?_
          intro hmem
          rcases mem_collapse hmem with he | hin
          · exact absurd he (by decide)
          · exact hm hin
      · rw [if_neg hc]

theorem tagFree_concat : ∀ {l : PyStr} {d : Char}, ¬ d = '<' → ¬ d = '>' → tagFree l = true →
    tagFree (l ++ [d]) = true := by
  intro l d hd1 hd2
  induction l with
  | nil => intro _; simp [tagFree, hd1]
  | cons c cs ih =>
    intro h
    simp only [tagFree, Bool.and_eq_true, List.cons_append] at h ⊢
    obtain ⟨h1, h2⟩ := h
    refine ⟨?_, ih h2⟩
    by_cases hc : c = '<'
    · rw [if_pos hc] at h1 ⊢
      rw [Option.isNone_iff_eq_none] at h1 ⊢
      exact takeAfterGt_none_concat hd2 h1
    · rw [if_neg hc]

theorem tagFree_snippetClean (s : PyStr) : tagFree (snippetClean s) = true := by
  have h0 : tagFree (strip_html s) = true := tagFree_strip_html s
  have h1 : tagFree (pyStrip (strip_html s)) = true :=
    tagFree_dropTrailingWs (tagFree_dropWhile _ h0)
  have h2 : tagFree (clean_text (strip_html s)) = true := tagFree_collapse h1
  show tagFree (truncatePy (clean_text (strip_html s)) SNIPPET_MAX) = true
  by_cases hlen : (clean_text (strip_html s)).length ≤ SNIPPET_MAX
  · rw [show truncatePy (clean_text (strip_html s)) SNIPPET_MAX = clean_text (strip_html s) from
      if_pos hlen]
    exact h2
  · rw [show truncatePy (clean_text (strip_html s)) SNIPPET_MAX =
      (clean_text (strip_html s)).take (SNIPPET_MAX - 1) ++ ['…'] from if_neg hlen]
    refine tagFree_concat (by decide) (by decide) ?_
    refine @tagFree_append_left _ ((clean_text (strip_html s)).drop (SNIPPET_MAX - 1)) ?_
    rw [List.take_append_drop]
    exact h2

theorem snippetClean_idem (s : PyStr) : snippetClean (snippetClean s) = snippetClean s := by
  have hsh : strip_html (snippetClean s) = snippetClean s :=
    strip_html_of_tagFree (tagFree_snippetClean s)
  show truncatePy (clean_text (strip_html (snippetClean s))) SNIPPET_MAX = snippetClean s
  rw [hsh]
  have hfix := cleanTrunc_fix (clean_text (strip_html s))
    (fun _ _ h => clean_text_head h) (fun _ h => clean_text_getLast h)
    (collapsedB_collapse (pyStrip (strip_html s)) false) SNIPPET_MAX (by decide)
  show truncatePy (clean_text (truncatePy (clean_text (strip_html s)) SNIPPET_MAX)) SNIPPET_MAX =
    snippetClean s
  rw [hfix.1]
  exact (if_pos hfix.2 :
    truncatePy (truncatePy (clean_text (strip_html s)) SNIPPET_MAX) SNIPPET_MAX =
      truncatePy (clean_text (strip_html s)) SNIPPET_MAX)

/-- C9: normalization is stable under re-application.  For every string,
the title cleanup pipeline (whitespace collapse, then length truncation)
and the snippet cleanup pipeline (HTML-tag strip, whitespace collapse,
length truncation) each map their own output to itself, so normalizing the
same raw entry twice yields identical candidate field values. -/
theorem C9_normalize_idempotent (s : PyStr) :
    titleClean (titleClean s) = titleClean s ∧ snippetClean (snippetClean s) = snippetClean s :=
  ⟨titleClean_idem s, snippetClean_idem s⟩

/-- ASCII lowercase map: models Python str.lower on the character
repertoire this program handles (ASCII letters; Hangul and punctuation are
unchanged by lowering). -/
def pyLowerChar (c : Char) : Char :=
  if 'A' ≤ c && c ≤ 'Z' then Char.ofNat (c.toNat + 32) else c

/-- Model of Python str.lower. -/
def pyLower (s : PyStr) : PyStr := s.map pyLowerChar

/-- Does the first string start with the second (Python str.startswith)? -/
def startsWith : PyStr → PyStr → Bool
  | _, [] => true
  | [], _ :: _ => false
  | c :: cs, d :: ds => c = d && startsWith cs ds

/-- Model of the Python substring test (needle in hay); an empty needle is
contained in every string. -/
def pyIn (needle : PyStr) : PyStr → Bool
  | [] => needle.isEmpty
  | c :: rest => startsWith (c :: rest) needle || pyIn needle rest

/-- Model of Python str.endswith. -/
def endsWithPy (s suf : PyStr) : Bool := startsWith s.reverse suf.reverse

/-- Result of the urlparse model: the components the program reads. -/
structure UrlParts where
  scheme : PyStr
  netloc : PyStr
  path : PyStr
  query : PyStr

def isAsciiAlpha (c : Char) : Bool := ('a' ≤ c && c ≤ 'z') || ('A' ≤ c && c ≤ 'Z')

def isSchemeChar (c : Char) : Bool :=
  isAsciiAlpha c || ('0' ≤ c && c ≤ '9') || c = '+' || c = '-' || c = '.'

/-- Scheme handling of urllib.parse.urlsplit: when the text before the
first colon is a nonempty run of scheme characters starting with a letter,
it is the (lowercased) scheme and the remainder follows the colon. -/
def splitScheme (u : PyStr) : PyStr × PyStr :=
  let pre := u.takeWhile (fun c => !(c = ':'))
  match u.dropWhile (fun c => !(c = ':')) with
  | [] => ([], u)
  | _ :: rest =>
    if (match pre with | c :: _ => isAsciiAlpha c | [] => false) && pre.all isSchemeChar
    then (pyLower pre, rest) else ([], u)

/-- Netloc handling of urllib.parse.urlsplit: after a double slash the
netloc runs until the first slash, question mark or hash sign. -/
def splitNetloc (u : PyStr) : PyStr × PyStr :=
  match u with
  | '/' :: '/' :: rest =>
    (rest.takeWhile (fun c => !(c = '/' || c = '?' || c = '#')),
     rest.dropWhile (fun c => !(c = '/' || c = '?' || c = '#')))
  | _ => ([], u)

/-- Split at the first occurrence of a character: (before, after), the
separator removed; when absent, (whole, empty). -/
def splitOnChar (ch : Char) (u : PyStr) : PyStr × PyStr :=
  (u.takeWhile (fun c => !(c = ch)),
   match u.dropWhile (fun c => !(c = ch)) with
   | [] => []
   | _ :: rest => rest)

/-- Model of urllib.parse.urlparse restricted to the fields the program
reads (scheme, netloc, path, query); the fragment is split off after the
netloc and before the query, as in urlsplit. -/
def pyUrlparse (u : PyStr) : UrlParts :=
  let sr := splitScheme u
  let nr := splitNetloc sr.2
  let bf := splitOnChar '#' nr.2
  let pq := splitOnChar '?' bf.1
  { scheme := sr.1, netloc := nr.1, path := pq.1, query := pq.2 }

def hexVal (c : Char) : Option Nat :=
  if '0' ≤ c && c ≤ '9' then some (c.toNat - 48)
  else if 'a' ≤ c && c ≤ 'f' then some (c.toNat - 87)
  else if 'A' ≤ c && c ≤ 'F' then some (c.toNat - 55)
  else none

def contByte (b : Nat) : Bool := 0x80 ≤ b && b < 0xc0

/-- UTF-8 decoding with replacement characters for malformed sequences,
modelling bytes.decode("utf-8", errors="replace") as used by
urllib.parse.unquote. -/
def utf8DecF : Nat → List Nat → List Char
  | 0, _ => []
  | _ + 1, [] => []
  | fuel + 1, b :: bs =>
    if b < 0x80 then Char.ofNat b :: utf8DecF fuel bs
    else if 0xc2 ≤ b && b ≤ 0xdf then
      match bs with
      | b2 :: bs2 =>
        if contByte b2 then Char.ofNat ((b - 0xc0) * 64 + (b2 - 0x80)) :: utf8DecF fuel bs2
        else '�' :: utf8DecF fuel (b2 :: bs2)
      | [] => ['�']
    else if 0xe0 ≤ b && b ≤ 0xef then
      match bs with
      | b2 :: b3 :: bs3 =>
        if contByte b2 && contByte b3 &&
           !(b = 0xe0 && b2 < 0xa0) && !(b = 0xed && 0xa0 ≤ b2) then
          Char.ofNat ((b - 0xe0) * 4096 + (b2 - 0x80) * 64 + (b3 - 0x80)) :: utf8DecF fuel bs3
        else '�' :: utf8DecF fuel (b2 :: b3 :: bs3)
      | [b2] => '�' :: utf8DecF fuel [b2]
      | [] => ['�']
    else if 0xf0 ≤ b && b ≤ 0xf4 then
      match bs with
      | b2 :: b3 :: b4 :: bs4 =>
        if contByte b2 && contByte b3 && contByte b4 &&
           !(b = 0xf0 && b2 < 0x90) && !(b = 0xf4 && 0x90 ≤ b2) then
          Char.ofNat ((b - 0xf0) * 262144 + (b2 - 0x80) * 4096 + (b3 - 0x80) * 64 + (b4 - 0x80))
            :: utf8DecF fuel bs4
        else '�' :: utf8DecF fuel (b2 :: b3 :: b4 :: bs4)
      | [b2, b3] => '�' :: utf8DecF fuel [b2, b3]
      | [b2] => '�' :: utf8DecF fuel [b2]
      | [] => ['�']
    else '�' :: utf8DecF fuel bs

/-- Decode a byte list as UTF-8; the fuel argument of the scan only serves
structural termination and the input length always suffices. -/
def utf8Dec (l : List Nat) : List Char := utf8DecF l.length l

/-- Fuelled percent-decoding scan of urllib.parse.unquote: a percent sign
followed by two hexadecimal digits yields a byte; anything else stays a
literal character. -/
def pctScanF : Nat → PyStr → List (Sum Char Nat)
  | 0, _ => []
  | _ + 1, [] => []
  | fuel + 1, '%' :: rest =>
    (match rest with
     | c1 :: c2 :: rest2 =>
       (match hexVal c1, hexVal c2 with
        | some h1, some h2 => Sum.inr (h1 * 16 + h2) :: pctScanF fuel rest2
        | _, _ => Sum.inl '%' :: pctScanF fuel (c1 :: c2 :: rest2))
     | _ => Sum.inl '%' :: pctScanF fuel rest)
  | fuel + 1, c :: rest => Sum.inl c :: pctScanF fuel rest

def pctScan (s : PyStr) : List (Sum Char Nat) := pctScanF s.length s

/-- Collect the leading run of bytes from a mixed character/byte list. -/
def takeBytes : List (Sum Char Nat) → List Nat × List (Sum Char Nat)
  | Sum.inr b :: rest =>
    let r := takeBytes rest
    (b :: r.1, r.2)
  | xs => ([], xs)

theorem takeBytes_length : ∀ (xs : List (Sum Char Nat)), (takeBytes xs).2.length ≤ xs.length := by
  intro xs
  induction xs with
  | nil => simp [takeBytes]
  | cons x rest ih =>
    cases x with
    | inl c => simp [takeBytes]
    | inr b =>
      simp only [takeBytes]
      exact le_trans ih (Nat.le_succ _)

/-- Fuelled reassembly of a percent-scan: byte runs go through the UTF-8
decoder, literal characters pass through. -/
def pctAssembleF : Nat → List (Sum Char Nat) → PyStr
  | 0, _ => []
  | _ + 1, [] => []
  | fuel + 1, Sum.inl c :: rest => c :: pctAssembleF fuel rest
  | fuel + 1, Sum.inr b :: rest =>
    utf8Dec (b :: (takeBytes rest).1) ++ pctAssembleF fuel (takeBytes rest).2

def pctAssemble (l : List (Sum Char Nat)) : PyStr := pctAssembleF l.length l

/-- Model of urllib.parse.unquote. -/
def pyUnquote (s : PyStr) : PyStr := pctAssemble (pctScan s)

/-- Model of urllib.parse.unquote_plus (plus signs become spaces). -/
def pyUnquotePlus (s : PyStr) : PyStr :=
  pyUnquote (s.map (fun c => if c = '+' then ' ' else c))

/-- Model of Python str.split with a one-character separator. -/
def splitChar (ch : Char) : PyStr → List PyStr
  | [] => [[]]
  | c :: cs =>
    if c = ch then [] :: splitChar ch cs
    else
      match splitChar ch cs with
      | [] => [[c]]
      | p :: ps => (c :: p) :: ps

/-- Key set of urllib.parse.parse_qs with its default arguments: fields of
the ampersand-split query that have an equals sign and a nonempty value
contribute their (unquote_plus-decoded) name; blank values are dropped. -/
def parseQsKeys (q : PyStr) : List PyStr :=
  (splitChar '&' q).filterMap fun field =>
    let nv := splitOnChar '=' field
    if nv.2.isEmpty then none else some (pyUnquotePlus nv.1)

/-- TARGET_SITES from src/main.py. -/
def TARGET_SITES : List PyStr :=
  [pstr "inven.co.kr", pstr "gamemeca.com", pstr "thisisgame.com", pstr "gametoc.co.kr",
   pstr "gameple.co.kr", pstr "zdnet.co.kr", pstr "ddaily.co.kr"]

/-- The _GOOGLE_HOSTS set from src/main.py. -/
def GOOGLE_HOSTS : List PyStr :=
  [pstr "news.google.com", pstr "www.google.com", pstr "google.com"]

/-- Model of _is_google_url from src/main.py: the lowercased host is one
of the google hosts or ends in .google.com.  (The urlparse-failure branch,
which returns true, is unreachable in the total parser model.) -/
def is_google_url (url : PyStr) : Bool :=
  let h := pyLower (pyUrlparse url).netloc
  GOOGLE_HOSTS.contains h || endsWithPy h (pstr ".google.com")

/-- Model of is_valid_article_url from src/main.py: empty URLs and
empty-or-root paths are rejected; on hosts ending in inven.co.kr, board
paths are rejected, webzine/news paths require the news query parameter,
and a keyword parameter without a news parameter is rejected; every other
URL is accepted. -/
def is_valid_article_url (url : PyStr) : Bool :=
  if url = [] then false
  else
    let host := pyLower (pyUrlparse url).netloc
    let path := pyLower (pyUrlparse url).path
    let qs := parseQsKeys (pyUrlparse url).query
    if path = [] ∨ path = ['/'] then false
    else if endsWithPy host (pstr "inven.co.kr") then
      if pyIn (pstr "/board/") path then false
      else if startsWith path (pstr "/webzine/news") && !(qs.contains (pstr "news")) then false
      else if qs.contains (pstr "keyword") && !(qs.contains (pstr "news")) then false
      else true
    else true

/-- NON_ARTICLE_TITLE_HINTS from src/main.py. -/
def NON_ARTICLE_TITLE_HINTS : List PyStr :=
  [pstr "공략", pstr "팁", pstr "노하우", pstr "질문", pstr "q&a", pstr "Q&A", pstr "인증",
   pstr "후기", pstr "스샷", pstr "스크린샷", pstr "길드", pstr "길드모집", pstr "길드 모집",
   pstr "모집", pstr "클랜", pstr "클랜모집", pstr "파티", pstr "팟", pstr "고정팟",
   pstr "거래", pstr "나눔", pstr "판매", pstr "삽니다", pstr "버그제보", pstr "건의", pstr "토론"]

/-- Model of _looks_like_non_article from src/main.py. -/
def looks_like_non_article (title snippet : PyStr) : Bool :=
  let blob := pyLower (title ++ [' '] ++ snippet)
  NON_ARTICLE_TITLE_HINTS.any (fun h => pyIn (pyLower h) blob)

/-- NEXON_TERMS from src/main.py. -/
def NEXON_TERMS : List PyStr :=
  [pstr "넥슨", pstr "nexon", pstr "넥슨코리아", pstr "넥슨게임즈", pstr "넥슨네트웍스", pstr "네오플"]

/-- Model of contains_nexon from src/main.py: a case-insensitive substring
match of some entity-name variant in the blob built from title and
snippet. -/
def contains_nexon (title snippet : PyStr) : Bool :=
  let blob := pyLower (title ++ [' '] ++ snippet)
  NEXON_TERMS.any (fun t => pyIn (pyLower t) blob)

/-- NEXON_IMPORTANCE from src/main.py. -/
def NEXON_IMPORTANCE : List (PyStr × Nat) :=
  [(pstr "M&A", 5), (pstr "인수", 5), (pstr "합병", 5),
   (pstr "투자", 4), (pstr "지분", 4),
   (pstr "소송", 5), (pstr "규제", 4),
   (pstr "매출", 4), (pstr "실적", 4), (pstr "영업이익", 4), (pstr "순이익", 4),
   (pstr "출시", 3), (pstr "업데이트", 3),
   (pstr "리스크", 3), (pstr "악재", 3), (pstr "호재", 3)]

/-- Model of nexon_score from src/main.py, on the title and snippet fields
it reads: the sum of the weights of the importance keywords found in the
blob, plus two when contains_nexon holds. -/
def nexon_score (title snippet : PyStr) : Nat :=
  let blob := pyLower (title ++ [' '] ++ snippet)
  (NEXON_IMPORTANCE.foldl
    (fun acc kw => if pyIn (pyLower kw.1) blob then acc + kw.2 else acc) 0)
  + (if contains_nexon title snippet then 2 else 0)

/-- Instant of the Asia/Seoul civil timeline: a day number (days since
1970-01-01 in the KST calendar) and a second of that day.  All datetimes
of compute_window_kst live in this one timezone, so the arithmetic of the
source maps directly onto day/second arithmetic. -/
structure KDateTime where
  day : Int
  sec : Nat
deriving DecidableEq

/-- Python date.weekday in the day-number model: Monday is 0 and day 0
(1970-01-01) was a Thursday. -/
def weekdayOf (d : Int) : Int := (d + 3) % 7

/-- Model of the is_business_day closure inside compute_window_kst: a
weekend day is never a business day, and when a holiday set is loaded its
members are excluded too; kr_holidays is None (the holidays library being
absent or failing) is the none case. -/
def isBusinessDay (krHolidays : Option (List Int)) (d : Int) : Bool :=
  if 5 ≤ weekdayOf d then false
  else if (match krHolidays with | some hs => decide (d ∈ hs) | none => false) then false
  else true

/-- SEND_HOUR from src/main.py. -/
def SEND_HOUR : Nat := 10

/-- END_CUTOFF (09:59:59) from src/main.py, as a second of day. -/
def END_CUTOFF_SEC : Nat := 9 * 3600 + 59 * 60 + 59

/-- Fuelled backward search for the previous business day (the while loop
of compute_window_kst); the fuel only serves structural termination. -/
def findPrevBusinessF (isBiz : Int → Bool) : Nat → Int → Int
  | 0, d => d
  | fuel + 1, d => if isBiz d then d else findPrevBusinessF isBiz fuel (d - 1)

/-- Fuel bound for the business-day search: below the smallest holiday
only weekends block, and any three consecutive days contain a weekday. -/
def bizFuel (krHolidays : Option (List Int)) (d : Int) : Nat :=
  match krHolidays with
  | none => 3
  | some [] => 3
  | some hs => (d - hs.foldr min d).toNat + 4

/-- Model of compute_window_kst from src/main.py: end is today at the
cutoff second, the previous business day is found by walking back from
yesterday, and the start second is the send hour unless today is a Monday
whose previous business day is a Friday, in which case midnight.  The
label string of the source is presentation only and not returned here. -/
def compute_window_kst (now : KDateTime) (krHolidays : Option (List Int)) :
    KDateTime × KDateTime :=
  let end_dt : KDateTime := ⟨now.day, END_CUTOFF_SEC⟩
  let prev_business := findPrevBusinessF (isBusinessDay krHolidays)
      (bizFuel krHolidays (now.day - 1)) (now.day - 1)
  let start_dt : KDateTime :=
    if weekdayOf now.day = 0 ∧ weekdayOf prev_business = 4 then ⟨prev_business, 0⟩
    else ⟨prev_business, SEND_HOUR * 3600⟩
  (start_dt, end_dt)

theorem foldr_min_le_self (hs : List Int) (d : Int) : hs.foldr min d ≤ d := by
  induction hs with
  | nil => exact le_rfl
  | cons a as ih => exact le_trans (min_le_right _ _) ih

theorem foldr_min_le_mem (hs : List Int) (d : Int) : ∀ x ∈ hs, hs.foldr min d ≤ x := by
  induction hs with
  | nil => intro x hx; simp at hx
  | cons a as ih =>
    intro x hx
    rcases List.mem_cons.mp hx with h1 | h2
    · subst h1; exact min_le_left _ _
    · exact le_trans (min_le_right _ _) (ih x h2)

theorem weekday_three (d : Int) :
    weekdayOf d < 5 ∨ weekdayOf (d - 1) < 5 ∨ weekdayOf (d - 2) < 5 := by
  unfold weekdayOf
  have h1 : d - 1 + 3 = d + 2 := by ring
  have h2 : d - 2 + 3 = d + 1 := by ring
  rw [h1, h2]
  omega

theorem isBiz_of_weekday_none {d : Int} (h : weekdayOf d < 5) :
    isBusinessDay none d = true := by
  unfold isBusinessDay
  rw [if_neg (by omega)]
  rfl

theorem isBiz_of_weekday_some {d : Int} {hs : List Int} (h : weekdayOf d < 5)
    (hmem : d ∉ hs) : isBusinessDay (some hs) d = true := by
  unfold isBusinessDay
  rw [if_neg (by omega)]
  simp [hmem]

theorem exists_biz (hol : Option (List Int)) (d : Int) :
    ∃ i : Nat, i < bizFuel hol d ∧ isBusinessDay hol (d - i) = true := by
  match hol with
  | none =>
    rcases weekday_three d with h | h | h
    · exact ⟨0, by norm_num [bizFuel], by simpa using isBiz_of_weekday_none h⟩
    · exact ⟨1, by norm_num [bizFuel], by simpa using isBiz_of_weekday_none h⟩
    · exact ⟨2, by norm_num [bizFuel], by simpa using isBiz_of_weekday_none h⟩
  | some [] =>
    rcases weekday_three d with h | h | h
    · exact ⟨0, by norm_num [bizFuel], by simpa using isBiz_of_weekday_some h (by simp)⟩
    · exact ⟨1, by norm_num [bizFuel], by simpa using isBiz_of_weekday_some h (by simp)⟩
    · exact ⟨2, by norm_num [bizFuel], by simpa using isBiz_of_weekday_some h (by simp)⟩
  | some (a :: as) =>
    set hs := a :: as with hhs
    set m := hs.foldr min d with hm
    have hmd : m ≤ d := foldr_min_le_self hs d
    have hnotmem : ∀ (j : Int), j < m → j ∉ hs := by
      intro j hj hmem
      exact absurd (foldr_min_le_mem hs d j hmem) (by omega)
    have hfuel : bizFuel (some hs) d = (d - m).toNat + 4 := by
      rw [hhs]; rfl
    rcases weekday_three (m - 1) with h | h | h
    · refine ⟨(d - (m - 1)).toNat, ?_, ?_⟩
      · rw [hfuel]; omega
      · have : d - ((d - (m - 1)).toNat : Int) = m - 1 := by omega
        rw [this]
        exact isBiz_of_weekday_some h (hnotmem _ (by omega))
    · refine ⟨(d - (m - 2)).toNat, ?_, ?_⟩
      · rw [hfuel]; omega
      · have : d - ((d - (m - 2)).toNat : Int) = m - 2 := by omega
        rw [this]
        exact isBiz_of_weekday_some
          (by rw [show (m - 2 : Int) = m - 1 - 1 from by ring]; exact h) (hnotmem _ (by omega))
    · refine ⟨(d - (m - 3)).toNat, ?_, ?_⟩
      · rw [hfuel]; omega
      · have : d - ((d - (m - 3)).toNat : Int) = m - 3 := by omega
        rw [this]
        exact isBiz_of_weekday_some
          (by rw [show (m - 3 : Int) = m - 1 - 2 from by ring]; exact h) (hnotmem _ (by omega))

theorem findPrevBusinessF_spec (isBiz : Int → Bool) :
    ∀ (fuel : Nat) (d : Int), (∃ i : Nat, i < fuel ∧ isBiz (d - i) = true) →
    isBiz (findPrevBusinessF isBiz fuel d) = true ∧
    (∀ e : Int, findPrevBusinessF isBiz fuel d < e → e ≤ d → isBiz e = false) ∧
    findPrevBusinessF isBiz fuel d ≤ d := by
  intro fuel
  induction fuel with
  | zero =>
    intro d h
    obtain ⟨i, hi, _⟩ := h
    omega
  | succ fuel ih =>
    intro d h
    by_cases hb : isBiz d = true
    · rw [show findPrevBusinessF isBiz (fuel + 1) d = d from by simp [findPrevBusinessF, hb]]
      exact ⟨hb, fun e he1 he2 => by omega, le_rfl⟩
    · rw [show findPrevBusinessF isBiz (fuel + 1) d = findPrevBusinessF isBiz fuel (d - 1) from by
        simp [findPrevBusinessF, hb]]
      obtain ⟨i, hi, hbi⟩ := h
      have hine : i ≠ 0 := by
        intro h0
        subst h0
        simp at hbi
        exact hb hbi
      obtain ⟨j, rfl⟩ : ∃ j, i = j + 1 := ⟨i - 1, by omega⟩
      have hih := ih (d - 1) ⟨j, by omega, by
        have : d - 1 - (j : Int) = d - ((j : Int) + 1) := by omega
        rw [this]
        exact_mod_cast hbi⟩
      refine ⟨hih.1, ?_, by omega⟩
      intro e he1 he2
      by_cases hed : e = d
      · subst hed
        exact Bool.not_eq_true _ |>.mp hb
      · exact hih.2.1 e he1 (by omega)

/-- C2 (amended): compute_window_kst makes end today's date at 09:59:59
and start the previous business day; the start second is 10:00:00 except
exactly when now is a Monday and the previous business day is a Friday
(the only widening case, regardless of how long a holiday gap is), when it
is 00:00:00.  The two concrete examples of the claim hold: a Monday after
an ordinary Friday yields Friday 00:00, and a Tuesday after an ordinary
Monday yields Monday 10:00:00. -/
theorem C2_amended :
    (∀ (now : KDateTime) (hol : Option (List Int)),
      (compute_window_kst now hol).2 = ⟨now.day, END_CUTOFF_SEC⟩ ∧
      isBusinessDay hol (compute_window_kst now hol).1.day = true ∧
      (∀ e : Int, (compute_window_kst now hol).1.day < e → e < now.day →
        isBusinessDay hol e = false) ∧
      (compute_window_kst now hol).1.day < now.day ∧
      (compute_window_kst now hol).1.sec =
        (if weekdayOf now.day = 0 ∧ weekdayOf (compute_window_kst now hol).1.day = 4
         then 0 else SEND_HOUR * 3600)) ∧
    (compute_window_kst ⟨4, 0⟩ none).1 = ⟨1, 0⟩ ∧
    (compute_window_kst ⟨4, 0⟩ none).2 = ⟨4, END_CUTOFF_SEC⟩ ∧
    (compute_window_kst ⟨5, 0⟩ none).1 = ⟨4, SEND_HOUR * 3600⟩ ∧
    (compute_window_kst ⟨5, 0⟩ none).2 = ⟨5, END_CUTOFF_SEC⟩ := by
  refine ⟨?_, by decide, by decide, by decide, by decide⟩
  intro now hol
  have hspec := findPrevBusinessF_spec (isBusinessDay hol)
    (bizFuel hol (now.day - 1)) (now.day - 1) (exists_biz hol (now.day - 1))
  set pb := findPrevBusinessF (isBusinessDay hol) (bizFuel hol (now.day - 1)) (now.day - 1)
    with hpb
  have hfst : (compute_window_kst now hol).1 =
      (if weekdayOf now.day = 0 ∧ weekdayOf pb = 4 then (⟨pb, 0⟩ : KDateTime)
       else ⟨pb, SEND_HOUR * 3600⟩) := rfl
  have hday : (compute_window_kst now hol).1.day = pb := by
    rw [hfst]
    by_cases hmf : weekdayOf now.day = 0 ∧ weekdayOf pb = 4
    · rw [if_pos hmf]
    · rw [if_neg hmf]
  refine ⟨rfl, ?_, ?_, ?_, ?_⟩
  · rw [hday]; exact hspec.1
  · intro e he1 he2
    rw [hday] at he1
    exact hspec.2.1 e he1 (by omega)
  · rw [hday]; omega
  · rw [hday, hfst]
    by_cases hmf : weekdayOf now.day = 0 ∧ weekdayOf pb = 4
    · rw [if_pos hmf, if_pos hmf]
    · rw [if_neg hmf, if_neg hmf]

/-- Closed witness for C2 (amended): the general part applied on a Monday
(day 4) with no holidays, together with the evaluated window. -/
theorem C2_amended_witness :
    isBusinessDay none ((compute_window_kst ⟨4, 0⟩ none).1.day) = true ∧
    (compute_window_kst ⟨4, 0⟩ none).1 = ⟨1, 0⟩ := by
  refine ⟨(C2_amended.1 ⟨4, 0⟩ none).2.1, by decide⟩

/-- C2 (counterexample): on a Tuesday (day 12) directly after a Monday
holiday (day 11), the three calendar days 9, 10 and 11 are all
non-business, so now is the first business day after a gap of more than
one calendar day; the claim then demands start = previous business day
(Friday, day 8) at 00:00:00, but the code widens only in the
Monday-after-Friday case and yields 10:00:00. -/
theorem C2_counterexample :
    isBusinessDay (some [11]) 12 = true ∧
    isBusinessDay (some [11]) 11 = false ∧
    isBusinessDay (some [11]) 10 = false ∧
    isBusinessDay (some [11]) 9 = false ∧
    isBusinessDay (some [11]) 8 = true ∧
    (compute_window_kst ⟨12, 0⟩ (some [11])).1 = ⟨8, SEND_HOUR * 3600⟩ ∧
    (compute_window_kst ⟨12, 0⟩ (some [11])).1.sec ≠ 0 := by
  refine ⟨by decide, by decide, by decide, by decide, by decide, by decide, by decide⟩

/-- Pre-parsed date tuple of a feed entry (published_parsed and friends);
only its presence and the first six components matter to the program. -/
abbrev TimeTuple := List Int

/-- Raw feed entry as the program reads it via getattr: string fields that
default to the empty string are plain strings, fields that default to None
are options. -/
structure Entry where
  title : PyStr
  link : PyStr
  summary : PyStr
  description : PyStr
  published : Option PyStr
  updated : Option PyStr
  published_parsed : Option TimeTuple
  updated_parsed : Option TimeTuple
  source_title : Option PyStr
deriving DecidableEq

/-- Attempt of one string date field: a missing or empty (falsy) value is
skipped, otherwise the oracle parser runs and a parse exception yields
none, falling through to the next field. -/
def tryDateStr (pdt : PyStr → Option Int) (s : Option PyStr) : Option Int :=
  match s with
  | none => none
  | some str => if str = [] then none else pdt str

/-- Attempt of one pre-parsed tuple field (a missing or empty value is
falsy and skipped). -/
def tryDateTup (ttk : TimeTuple → Option Int) (t : Option TimeTuple) : Option Int :=
  match t with
  | none => none
  | some tup => if tup = [] then none else ttk tup

/-- Model of parse_entry_datetime_kst from src/main.py.  The stdlib
parsers are oracle parameters: pdt models parsedate_to_datetime composed
with the assume-UTC default and the KST conversion (none models a raised
exception), and ttk models datetime(*t[:6]) treated as UTC and converted
to KST.  Timestamps are seconds of the KST timeline. -/
def parse_entry_datetime_kst (pdt : PyStr → Option Int) (ttk : TimeTuple → Option Int)
    (e : Entry) : Option Int :=
  (tryDateStr pdt e.published).orElse fun _ =>
  (tryDateStr pdt e.updated).orElse fun _ =>
  (tryDateTup ttk e.published_parsed).orElse fun _ =>
  tryDateTup ttk e.updated_parsed

/-- Model of _press_guess from src/main.py: the cleaned source title when
present and nonempty, else the placeholder NEWS. -/
def press_guess (e : Entry) : PyStr :=
  match e.source_title with
  | some t => if clean_text t = [] then pstr "NEWS" else clean_text t
  | none => pstr "NEWS"

/-- Collision-free model of _stable_id from src/main.py (a 16-hex-digit
sha1 of title || link): the dictionary behaviour is preserved by keying
on the hash preimage itself. -/
def stable_id (title link : PyStr) : PyStr := title ++ pstr "||" ++ link

/-- Candidate article dictionary as built in fetch_track. -/
structure Item where
  track : PyStr
  keyword : PyStr
  press : PyStr
  title : PyStr
  google_link : PyStr
  link : Option PyStr
  published_dt : Int
  published : PyStr
  snippet : PyStr
deriving DecidableEq

/-- Per-track statistics dictionary of fetch_track. -/
structure FetchStats where
  feeds_called : Nat
  entries_seen : Nat
  hint_drop : Nat
  no_date_drop : Nat
  too_old_drop : Nat
  window_drop : Nat
  added : Nat
deriving DecidableEq

def fetchStats0 : FetchStats := ⟨0, 0, 0, 0, 0, 0, 0⟩

/-- Decimal digits of a natural number. -/
def natDigits (n : Nat) : PyStr := Nat.toDigits 10 n

def pad2 (n : Nat) : PyStr := if n < 10 then '0' :: natDigits n else natDigits n

def pad4 (n : Nat) : PyStr :=
  let s := natDigits n
  List.replicate (4 - s.length) '0' ++ s

/-- Civil date (year, month, day) from a day number of the proleptic
Gregorian calendar with epoch 1970-01-01, by the standard era
decomposition. -/
def civilFromDays (z0 : Int) : Int × Int × Int :=
  let z := z0 + 719468
  let era := z.ediv 146097
  let doe := z - era * 146097
  let yoe := (doe - doe.ediv 1460 + doe.ediv 36524 - doe.ediv 146096).ediv 365
  let y := yoe + era * 400
  let doy := doe - (365 * yoe + yoe.ediv 4 - yoe.ediv 100)
  let mp := (5 * doy + 2).ediv 153
  let d := doy - (153 * mp + 2).ediv 5 + 1
  let m := mp + (if mp < 10 then 3 else -9)
  (y + (if m ≤ 2 then 1 else 0), m, d)

/-- strftime of the pattern year-month-day hour:minute on the KST
timeline model. -/
def formatKstMinutes (t : Int) : PyStr :=
  let day := t.ediv 86400
  let sec := (t.emod 86400).toNat
  let c := civilFromDays day
  pad4 c.1.toNat ++ pstr "-" ++ pad2 c.2.1.toNat ++ pstr "-" ++ pad2 c.2.2.toNat ++
  pstr " " ++ pad2 (sec / 3600) ++ pstr ":" ++ pad2 ((sec % 3600) / 60)

/-- The label string of compute_window_kst. -/
def windowLabel (start_dt end_dt : KDateTime) : PyStr :=
  formatKstMinutes (start_dt.day * 86400 + start_dt.sec) ++ pstr " ~ " ++
  formatKstMinutes (end_dt.day * 86400 + end_dt.sec) ++ pstr " (KST)"

/-- Stable insertion for a descending sort: the new element goes in front
of the first element whose key is not strictly greater, so equal keys keep
their original order — the order produced by Python sorted with
reverse=True. -/
def insertDescBy {α κ : Type} (key : α → κ) (lt : κ → κ → Bool) (x : α) : List α → List α
  | [] => [x]
  | y :: ys => if lt (key x) (key y) then y :: insertDescBy key lt x ys else x :: y :: ys

/-- Stable descending sort by a key, the behaviour of Python sorted with
reverse=True. -/
def sortDescBy {α κ : Type} (key : α → κ) (lt : κ → κ → Bool) : List α → List α
  | [] => []
  | x :: xs => insertDescBy key lt x (sortDescBy key lt xs)

/-- Membership key test on an association list (the sid in found test). -/
def assocHasKey (l : List (PyStr × Item)) (k : PyStr) : Bool :=
  l.any (fun p => p.1 == k)

/-- One iteration of the entry loop of fetch_track: clean the title and
link (each empty one skips), clean the snippet, drop non-article hints,
drop entries without a parseable date, drop too-old and out-of-window
dates, and insert the candidate under its stable id unless already seen. -/
def processEntry (pdt : PyStr → Option Int) (ttk : TimeTuple → Option Int)
    (track kw : PyStr) (start_dt end_dt : Int)
    (st : List (PyStr × Item) × FetchStats) (e : Entry) :
    List (PyStr × Item) × FetchStats :=
  let found := st.1
  let stats := { st.2 with entries_seen := st.2.entries_seen + 1 }
  let title := truncatePy (clean_text e.title) TITLE_MAX
  if title = [] then (found, stats)
  else
    let google_link := clean_text e.link
    if google_link = [] then (found, stats)
    else
      let snippet_raw := if e.summary ≠ [] then e.summary else e.description
      let snippet := truncatePy (clean_text (strip_html snippet_raw)) SNIPPET_MAX
      if looks_like_non_article title snippet then
        (found, { stats with hint_drop := stats.hint_drop + 1 })
      else
        match parse_entry_datetime_kst pdt ttk e with
        | none => (found, { stats with no_date_drop := stats.no_date_drop + 1 })
        | some pub =>
          if pub < start_dt - 86400 then
            (found, { stats with too_old_drop := stats.too_old_drop + 1 })
          else if pub < start_dt ∨ end_dt < pub then
            (found, { stats with window_drop := stats.window_drop + 1 })
          else
            let sid := stable_id title google_link
            if assocHasKey found sid then (found, stats)
            else
              (found ++ [(sid,
                { track := track, keyword := kw, press := press_guess e, title := title,
                  google_link := google_link, link := none, published_dt := pub,
                  published := formatKstMinutes pub, snippet := snippet })],
               { stats with added := stats.added + 1 })

/-- Model of fetch_track from src/main.py.  The query construction, the
HTTP fetch and feedparser are one oracle per keyword: ok gives the parsed
entry list of that keyword's search feed, error models any exception of
the request or parse (the keyword is skipped and the loop continues).
The returned items are the found values sorted by publish time
descending. -/
def fetch_track (pdt : PyStr → Option Int) (ttk : TimeTuple → Option Int)
    (track : PyStr) (keywords : List PyStr) (max_entries : Nat)
    (feedFor : PyStr → Except Unit (List Entry)) (start_dt end_dt : Int) :
    List Item × FetchStats :=
  let step := fun (st : List (PyStr × Item) × FetchStats) (kw : PyStr) =>
    match feedFor kw with
    | Except.error _ => st
    | Except.ok entries =>
      (entries.take max_entries).foldl (processEntry pdt ttk track kw start_dt end_dt)
        (st.1, { st.2 with feeds_called := st.2.feeds_called + 1 })
  let fin := keywords.foldl step ([], fetchStats0)
  (sortDescBy (fun a => a.published_dt) (fun a b => decide (a < b)) (fin.1.map Prod.snd), fin.2)

/-- C5 (counterexample): the claim asserts that is_valid_article_url
rejects the board URL and the keyword-only list URL on the host
example-news.kr, but the board and query-parameter rules of the code fire
only for hosts ending in inven.co.kr, so both URLs are accepted. -/
theorem C5_counterexample :
    is_valid_article_url (pstr "https://example-news.kr/board/12345") = true ∧
    is_valid_article_url (pstr "https://example-news.kr/webzine/news/?keyword=foo") = true := by
  constructor
  · decide
  · decide

/-- C5 (amended): on the host the code actually special-cases
(inven.co.kr), is_valid_article_url rejects board URLs, accepts
webzine/news URLs carrying the news article-id parameter, and rejects
webzine/news URLs carrying only a keyword parameter; on any other host,
such as example-news.kr, all three URL shapes are accepted because no
per-site rule applies. -/
theorem C5_amended_inven_rules :
    is_valid_article_url (pstr "https://inven.co.kr/board/12345") = false ∧
    is_valid_article_url (pstr "https://inven.co.kr/webzine/news/?news=298765") = true ∧
    is_valid_article_url (pstr "https://inven.co.kr/webzine/news/?keyword=foo") = false ∧
    is_valid_article_url (pstr "https://example-news.kr/webzine/news/?news=298765") = true := by
  refine ⟨?_, ?_, ?_, ?_⟩ <;> decide

/-- C6 (counterexample): the claim asserts that every URL whose host is
the aggregator (news.google.com or any google host) is rejected by
is_valid_article_url regardless of path, but the function contains no
host-based aggregator check: a news.google.com URL with an ordinary path
is accepted even though _is_google_url classifies it as a google URL. -/
theorem C6_counterexample :
    is_google_url (pstr "https://news.google.com/articles/abc") = true ∧
    is_valid_article_url (pstr "https://news.google.com/articles/abc") = true := by
  constructor
  · decide
  · decide

/-- C6 (amended): is_valid_article_url never consults the host against
the aggregator set; aggregator URLs are rejected only by the generic
empty-or-root-path rule, which applies to every host, while a google-host
URL with a regular path is accepted (the aggregator-host test exists only
in _is_google_url, used by the resolver). -/
theorem C6_amended (url : PyStr)
    (h : pyLower (pyUrlparse url).path = [] ∨ pyLower (pyUrlparse url).path = ['/']) :
    is_valid_article_url url = false := by
  unfold is_valid_article_url
  by_cases he : url = []
  · rw [if_pos he]
  · rw [if_neg he, if_pos h]

/-- Closed witness for C6 (amended) at a concrete aggregator URL with a
root path. -/
theorem C6_amended_witness : is_valid_article_url (pstr "https://news.google.com/") = false :=
  C6_amended (pstr "https://news.google.com/") (Or.inr (by decide))

theorem mem_insertDescBy {α κ : Type} (key : α → κ) (lt : κ → κ → Bool) (x : α) :
    ∀ (l : List α) (a : α), a ∈ insertDescBy key lt x l ↔ a = x ∨ a ∈ l := by
  intro l
  induction l with
  | nil => intro a; simp [insertDescBy]
  | cons y ys ih =>
    intro a
    by_cases hlt : lt (key x) (key y) = true
    · simp only [insertDescBy, if_pos hlt, List.mem_cons, ih]
      tauto
    · simp only [insertDescBy, if_neg hlt, List.mem_cons]

theorem mem_sortDescBy {α κ : Type} (key : α → κ) (lt : κ → κ → Bool) :
    ∀ (l : List α) (a : α), a ∈ sortDescBy key lt l ↔ a ∈ l := by
  intro l
  induction l with
  | nil => intro a; simp [sortDescBy]
  | cons x xs ih =>
    intro a
    simp only [sortDescBy, mem_insertDescBy, List.mem_cons, ih]

theorem processEntry_inv (pdt : PyStr → Option Int) (ttk : TimeTuple → Option Int)
    (track kw : PyStr) (start_dt end_dt : Int)
    (st : List (PyStr × Item) × FetchStats) (e : Entry) (it : Item)
    (h : it ∈ (processEntry pdt ttk track kw start_dt end_dt st e).1.map Prod.snd) :
    it ∈ st.1.map Prod.snd ∨
    (start_dt ≤ it.published_dt ∧ it.published_dt ≤ end_dt ∧
     parse_entry_datetime_kst pdt ttk e = some it.published_dt) := by
  unfold processEntry at h
  dsimp only at h
  repeat' split at h
  all_goals
    first
    | exact Or.inl h
    | (rw [List.map_append] at h
       rcases List.mem_append.mp h with ha | hb
       · exact Or.inl ha
       · simp only [List.map_cons, List.map_nil, List.mem_singleton] at hb
         subst hb
         refine Or.inr ⟨?_, ?_, by assumption⟩ <;> (dsimp only; omega))

theorem foldl_processEntry_inv (pdt : PyStr → Option Int) (ttk : TimeTuple → Option Int)
    (track kw : PyStr) (start_dt end_dt : Int) :
    ∀ (es : List Entry) (st : List (PyStr × Item) × FetchStats) (it : Item),
    it ∈ (es.foldl (processEntry pdt ttk track kw start_dt end_dt) st).1.map Prod.snd →
    it ∈ st.1.map Prod.snd ∨
    (start_dt ≤ it.published_dt ∧ it.published_dt ≤ end_dt ∧
     ∃ e : Entry, parse_entry_datetime_kst pdt ttk e = some it.published_dt) := by
  intro es
  induction es with
  | nil => intro st it h; exact Or.inl h
  | cons e es ih =>
    intro st it h
    rcases ih _ it h with h1 | h2
    · rcases processEntry_inv pdt ttk track kw start_dt end_dt st e it h1 with ha | hb
      · exact Or.inl ha
      · exact Or.inr ⟨hb.1, hb.2.1, e, hb.2.2⟩
    · exact Or.inr h2

/-- C7: every candidate produced by a collection pass carries a
successfully parsed publish timestamp t with start ≤ t ≤ end for the
window passed to fetch_track (hence also t at least start minus one day,
the hard floor); an entry with no parseable timestamp in any recognized
field never contributes an item, since each emitted item's timestamp is
the successful parse of some entry. -/
theorem C7_window_containment (pdt : PyStr → Option Int) (ttk : TimeTuple → Option Int)
    (track : PyStr) (keywords : List PyStr) (max_entries : Nat)
    (feedFor : PyStr → Except Unit (List Entry)) (start_dt end_dt : Int) :
    ∀ it ∈ (fetch_track pdt ttk track keywords max_entries feedFor start_dt end_dt).1,
      start_dt ≤ it.published_dt ∧ it.published_dt ≤ end_dt ∧
      start_dt - 86400 ≤ it.published_dt ∧
      ∃ e : Entry, parse_entry_datetime_kst pdt ttk e = some it.published_dt := by
  intro it hmem
  unfold fetch_track at hmem
  dsimp only at hmem
  rw [mem_sortDescBy] at hmem
  have main : ∀ (kws : List PyStr) (st : List (PyStr × Item) × FetchStats),
      it ∈ ((kws.foldl (fun st kw =>
        match feedFor kw with
        | Except.error _ => st
        | Except.ok entries =>
          (entries.take max_entries).foldl (processEntry pdt ttk track kw start_dt end_dt)
            (st.1, { st.2 with feeds_called := st.2.feeds_called + 1 })) st).1.map Prod.snd) →
      it ∈ st.1.map Prod.snd ∨
      (start_dt ≤ it.published_dt ∧ it.published_dt ≤ end_dt ∧
       ∃ e : Entry, parse_entry_datetime_kst pdt ttk e = some it.published_dt) := by
    intro kws
    induction kws with
    | nil => intro st h; exact Or.inl h
    | cons kw kws ih =>
      intro st h
      rw [List.foldl_cons] at h
      dsimp only at h
      revert h
      cases hf : feedFor kw with
      | error u =>
        intro h
        exact ih _ h
      | ok entries =>
        intro h
        dsimp only at h
        rcases ih _ h with h1 | h2
        · rcases foldl_processEntry_inv pdt ttk track kw start_dt end_dt
            (entries.take max_entries) _ it h1 with ha | hb
          · exact Or.inl ha
          · exact Or.inr hb
        · exact Or.inr h2
  rcases main keywords ([], fetchStats0) hmem with h1 | h2
  · simp at h1
  · exact ⟨h2.1, h2.2.1, by omega, h2.2.2⟩

/-- Concrete oracle: one RFC-style date string parses to the timestamp
500000, everything else fails. -/
def pdtW : PyStr → Option Int := fun s => if s = pstr "RFC" then some 500000 else none

/-- Concrete oracle: every date tuple fails to convert. -/
def ttkW : TimeTuple → Option Int := fun _ => none

/-- Concrete feed entry for the fetch_track witness run. -/
def entryW : Entry :=
  { title := pstr "넥슨 인수 보도", link := pstr "https://news.google.com/rss/x",
    summary := [], description := [], published := some (pstr "RFC"), updated := none,
    published_parsed := none, updated_parsed := none, source_title := none }

/-- Concrete feed oracle returning one entry for every keyword. -/
def feedW : PyStr → Except Unit (List Entry) := fun _ => Except.ok [entryW]

/-- The item that the witness run produces. -/
def wItem : Item :=
  { track := pstr "general", keyword := pstr "투자", press := pstr "NEWS",
    title := truncatePy (clean_text entryW.title) TITLE_MAX,
    google_link := clean_text entryW.link, link := none, published_dt := 500000,
    published := formatKstMinutes 500000, snippet := [] }

/-- Closed witness for C7: a concrete one-entry run emits exactly the
expected item, and the theorem applied to it gives the window bounds. -/
theorem C7_window_containment_witness :
    wItem ∈ (fetch_track pdtW ttkW (pstr "general") [pstr "투자"] 30 feedW 400000 600000).1 ∧
    (400000 : Int) ≤ wItem.published_dt ∧ wItem.published_dt ≤ 600000 ∧
    (400000 : Int) - 86400 ≤ wItem.published_dt := by
  have hm : wItem ∈ (fetch_track pdtW ttkW (pstr "general") [pstr "투자"] 30 feedW
      400000 600000).1 := by decide
  have hc := C7_window_containment pdtW ttkW (pstr "general") [pstr "투자"] 30 feedW
    400000 600000 wItem hm
  exact ⟨hm, hc.1, hc.2.1, hc.2.2.1⟩

/-- Characters admitted in the URL run of the regex of _URL_RE (everything
except whitespace, double quote, single quote, less-than, greater-than). -/
def urlRunChar (c : Char) : Bool :=
  !(isPySpace c || c = '"' || c = '\'' || c = '<' || c = '>')

/-- Case-insensitive match of the literal https?:// at the head of the
list, returning the matched text and the remainder. -/
def matchHttp (l : PyStr) : Option (PyStr × PyStr) :=
  match l with
  | c1 :: c2 :: c3 :: c4 :: rest =>
    if pyLowerChar c1 = 'h' && pyLowerChar c2 = 't' && pyLowerChar c3 = 't' &&
       pyLowerChar c4 = 'p' then
      match rest with
      | c5 :: rest2 =>
        if pyLowerChar c5 = 's' then
          match rest2 with
          | ':' :: '/' :: '/' :: rest3 => some ([c1, c2, c3, c4, c5, ':', '/', '/'], rest3)
          | _ => none
        else
          match rest with
          | ':' :: '/' :: '/' :: rest3 => some ([c1, c2, c3, c4, ':', '/', '/'], rest3)
          | _ => none
      | [] => none
    else none
  | _ => none

/-- Model of the findall of _URL_RE (https?://[^whitespace quote angle]+,
case-insensitive): scan left to right, on a match take the maximal nonempty
run after the scheme and resume past it, otherwise advance one
character. -/
def findUrlsF : Nat → PyStr → List PyStr
  | 0, _ => []
  | _ + 1, [] => []
  | fuel + 1, c :: cs =>
    match matchHttp (c :: cs) with
    | some (sch, rest) =>
      let run := rest.takeWhile urlRunChar
      if run = [] then findUrlsF fuel cs
      else (sch ++ run) :: findUrlsF fuel (rest.dropWhile urlRunChar)
    | none => findUrlsF fuel cs

def findUrls (text : PyStr) : List PyStr := findUrlsF text.length text

/-- The text before the first occurrence of the separator (Python
s.split(sep)[0]); the whole string when the separator is absent. -/
def beforeSub (sep : PyStr) : PyStr → PyStr
  | [] => []
  | c :: cs => if startsWith (c :: cs) sep then [] else c :: beforeSub sep cs

/-- Model of _collect_target_urls from src/main.py: extract URLs with the
regex, cut each at the first html-escaped ampersand, percent-decode, and
keep those containing some target site as a substring. -/
def collect_target_urls (text : PyStr) : List PyStr :=
  (findUrls text).filterMap fun u =>
    let u1 := pyUnquote (beforeSub (pstr "&amp;") u)
    if TARGET_SITES.any (fun site => pyIn site u1) then some u1 else none

/-- Model of _score_candidate from src/main.py (its except branch, which
returns -999, is unreachable with the total parser model). -/
def score_candidate (u : PyStr) : Int :=
  let p := pyUrlparse u
  let host := pyLower p.netloc
  let path := p.path
  let qs := parseQsKeys p.query
  let sc1 : Int := if TARGET_SITES.any (fun s => pyIn s u) then 10 else 0
  let sc2 : Int := if path = [] ∨ path = ['/'] then -50 else 0
  let sc3 : Int := if path.length < 6 then -10 else 0
  let inv : Int :=
    if pyIn (pstr "inven.co.kr") host then
      (if pyIn (pstr "/board/") (pyLower path) then -80 else 0) +
      (if pyIn (pstr "/webzine/news") (pyLower path) && qs.contains (pstr "news") then 60 else 0) +
      (if qs.contains (pstr "keyword") && !(qs.contains (pstr "news")) then -60 else 0)
    else 0
  sc1 + sc2 + sc3 + inv

/-- Stable deduplication keeping first occurrences
(list(dict.fromkeys(...))). -/
def dedupKeepFirstAux (seen : List PyStr) : List PyStr → List PyStr
  | [] => []
  | x :: xs =>
    if seen.contains x then dedupKeepFirstAux seen xs
    else x :: dedupKeepFirstAux (x :: seen) xs

def dedupKeepFirst (l : List PyStr) : List PyStr := dedupKeepFirstAux [] l

/-- Network outcome of the resolver for one aggregator URL: the final URL
of the redirect-following get of step 1 and the decoded html prefix of the
streaming get of step 2; none models a raised network exception at that
step. -/
structure NetOutcome where
  redirectFinal : Option PyStr
  htmlText : Option PyStr

/-- Resolver state: the per-run cache of PublisherResolver plus a ghost
counter of resolve invocations (pure instrumentation: nothing reads
it). -/
structure RState where
  cache : List (PyStr × Option PyStr)
  calls : Nat
deriving DecidableEq

def rstate0 : RState := ⟨[], 0⟩

def cacheLookup (c : List (PyStr × Option PyStr)) (k : PyStr) : Option (Option PyStr) :=
  match c with
  | [] => none
  | p :: rest => if p.1 == k then some p.2 else cacheLookup rest k

/-- Model of PublisherResolver.resolve from src/main.py, parameterised by
the network outcome per URL.  An empty URL and a cache hit return at once;
step 1 accepts the redirect target when it is nonempty, not a google URL,
contains a target site and passes the article filter (otherwise it falls
through); step 2 collects candidate URLs from the html, stable-
deduplicates, stable-sorts by score descending and returns the first of
the top 25 passing the article filter; total failure caches none. -/
def resolve (net : PyStr → NetOutcome) (google_url : PyStr) (st : RState) :
    Option PyStr × RState :=
  let st1 : RState := ⟨st.cache, st.calls + 1⟩
  if google_url = [] then (none, st1)
  else
    match cacheLookup st1.cache google_url with
    | some v => (v, st1)
    | none =>
      let out := net google_url
      let step1 : Option PyStr :=
        match out.redirectFinal with
        | none => none
        | some final =>
          if final ≠ [] ∧ is_google_url final = false ∧
             TARGET_SITES.any (fun s => pyIn s final) = true ∧
             is_valid_article_url final = true
          then some final else none
      match step1 with
      | some final => (some final, ⟨st1.cache ++ [(google_url, some final)], st1.calls⟩)
      | none =>
        let step2 : Option PyStr :=
          match out.htmlText with
          | none => none
          | some text =>
            let cands := dedupKeepFirst (collect_target_urls text)
            let sorted := sortDescBy score_candidate (fun a b => decide (a < b)) cands
            (sorted.take 25).find? (fun u => is_valid_article_url u)
        match step2 with
        | some u => (some u, ⟨st1.cache ++ [(google_url, some u)], st1.calls⟩)
        | none => (none, ⟨st1.cache ++ [(google_url, none)], st1.calls⟩)

/-- RESOLVE_BUDGET_GENERAL from src/main.py. -/
def RESOLVE_BUDGET_GENERAL : Nat := 120

/-- RESOLVE_BUDGET_NEXON from src/main.py. -/
def RESOLVE_BUDGET_NEXON : Nat := 80

/-- Statistics dictionary of finalize_items. -/
structure FinalStats where
  resolved_ok : Nat
  resolve_fail_drop : Nat
  non_article_url_drop : Nat
deriving DecidableEq

def finalStats0 : FinalStats := ⟨0, 0, 0⟩

/-- The loop of finalize_items: each item past the budget is dropped and
counted as a resolver failure without any resolve call; within the budget
the resolver runs (the used counter advances regardless of success),
unresolved and non-article results are dropped, and successes are emitted
in order with the resolved link set. -/
def finalizeLoop (net : PyStr → NetOutcome) (budget : Nat) :
    List Item → Nat → RState → FinalStats → List Item × FinalStats × RState
  | [], _, st, stats => ([], stats, st)
  | a :: rest, used, st, stats =>
    if budget ≤ used then
      finalizeLoop net budget rest used st
        { stats with resolve_fail_drop := stats.resolve_fail_drop + 1 }
    else
      let r := resolve net a.google_link st
      match r.1 with
      | none =>
        finalizeLoop net budget rest (used + 1) r.2
          { stats with resolve_fail_drop := stats.resolve_fail_drop + 1 }
      | some pub_url =>
        if is_valid_article_url pub_url = false then
          finalizeLoop net budget rest (used + 1) r.2
            { stats with non_article_url_drop := stats.non_article_url_drop + 1 }
        else
          let out := finalizeLoop net budget rest (used + 1) r.2
            { stats with resolved_ok := stats.resolved_ok + 1 }
          ({ a with link := some pub_url } :: out.1, out.2.1, out.2.2)

/-- Dictionary overwrite keeping the original insertion position of an
existing key (Python dict assignment). -/
def updateAssoc (l : List (PyStr × Item)) (k : PyStr) (v : Item) : List (PyStr × Item) :=
  match l with
  | [] => [(k, v)]
  | p :: rest => if p.1 == k then (k, v) :: rest else p :: updateAssoc rest k v

/-- The dedup dictionary of finalize_items: keyed on the stable id of
title and resolved link, last write wins. -/
def dedupBySid (out : List Item) : List Item :=
  (out.foldl
    (fun acc a => updateAssoc acc (stable_id a.title (a.link.getD [])) a) []).map Prod.snd

/-- Model of finalize_items from src/main.py. -/
def finalize_items (net : PyStr → NetOutcome) (items : List Item) (budget : Nat)
    (st : RState) : List Item × FinalStats × RState :=
  let loopOut := finalizeLoop net budget items 0 st finalStats0
  (sortDescBy (fun a => a.published_dt) (fun a b => decide (a < b)) (dedupBySid loopOut.1),
   loopOut.2.1, loopOut.2.2)

theorem resolve_calls (net : PyStr → NetOutcome) (u : PyStr) (st : RState) :
    ((resolve net u st).2).calls = st.calls + 1 := by
  unfold resolve
  dsimp only
  repeat' split
  all_goals rfl

theorem finalizeLoop_length (net : PyStr → NetOutcome) (budget : Nat) :
    ∀ (items : List Item) (used : Nat) (st : RState) (stats : FinalStats),
    (finalizeLoop net budget items used st stats).1.length ≤ budget - used := by
  intro items
  induction items with
  | nil => intro used st stats; simp [finalizeLoop]
  | cons a rest ih =>
    intro used st stats
    unfold finalizeLoop
    dsimp only
    split
    · next h => exact le_trans (ih used st _) le_rfl
    · next h =>
      split
      · exact le_trans (ih (used + 1) _ _) (by omega)
      · split
        · exact le_trans (ih (used + 1) _ _) (by omega)
        · simp only [List.length_cons]
          have h2 := ih (used + 1) ((resolve net a.google_link st).2)
            { stats with resolved_ok := stats.resolved_ok + 1 }
          omega

theorem finalizeLoop_calls (net : PyStr → NetOutcome) (budget : Nat) :
    ∀ (items : List Item) (used : Nat) (st : RState) (stats : FinalStats),
    (finalizeLoop net budget items used st stats).2.2.calls ≤ st.calls + (budget - used) := by
  intro items
  induction items with
  | nil => intro used st stats; simp [finalizeLoop]
  | cons a rest ih =>
    intro used st stats
    unfold finalizeLoop
    dsimp only
    split
    · next h => exact ih used st _
    · next h =>
      have hc : ((resolve net a.google_link st).2).calls = st.calls + 1 :=
        resolve_calls net a.google_link st
      split
      · exact le_trans (ih (used + 1) _ _) (by omega)
      · split
        · exact le_trans (ih (used + 1) _ _) (by omega)
        · exact le_trans (ih (used + 1) _ _) (by omega)

theorem finalizeLoop_over (net : PyStr → NetOutcome) (budget : Nat) :
    ∀ (items : List Item) (used : Nat) (st : RState) (stats : FinalStats), budget ≤ used →
    finalizeLoop net budget items used st stats =
      ([], { stats with resolve_fail_drop := stats.resolve_fail_drop + items.length }, st) := by
  intro items
  induction items with
  | nil => intro used st stats h; simp [finalizeLoop]
  | cons a rest ih =>
    intro used st stats h
    unfold finalizeLoop
    dsimp only
    rw [if_pos h, ih used st _ h]
    simp only [List.length_cons, Prod.mk.injEq, FinalStats.mk.injEq]
    refine ⟨by trivial, ⟨by trivial, by omega, by trivial⟩, by trivial⟩

theorem finalizeLoop_take (net : PyStr → NetOutcome) (budget : Nat) :
    ∀ (items : List Item) (used : Nat) (st : RState) (stats : FinalStats),
    (finalizeLoop net budget items used st stats).1 =
    (finalizeLoop net budget (items.take (budget - used)) used st stats).1 := by
  intro items
  induction items with
  | nil => intro used st stats; rw [List.take_nil]
  | cons a rest ih =>
    intro used st stats
    by_cases h : budget ≤ used
    · have hz : budget - used = 0 := by omega
      rw [hz, List.take_zero]
      rw [finalizeLoop_over net budget (a :: rest) used st stats h]
      rfl
    · obtain ⟨k, hk⟩ : ∃ k, budget - used = k + 1 := ⟨budget - used - 1, by omega⟩
      rw [hk, List.take_succ_cons]
      have hk' : budget - (used + 1) = k := by omega
      show (finalizeLoop net budget (a :: rest) used st stats).1 =
        (finalizeLoop net budget (a :: rest.take k) used st stats).1
      unfold finalizeLoop
      dsimp only
      rw [if_neg h, if_neg h]
      split
      · rw [ih (used + 1), hk']
      · split
        · rw [ih (used + 1), hk']
        · simp only [List.cons.injEq]
          exact ⟨by trivial, by rw [ih (used + 1), hk']⟩

theorem finalizeLoop_fail (net : PyStr → NetOutcome) (budget : Nat) :
    ∀ (items : List Item) (used : Nat) (st : RState) (stats : FinalStats),
    stats.resolve_fail_drop + items.length - (budget - used) ≤
    (finalizeLoop net budget items used st stats).2.1.resolve_fail_drop := by
  intro items
  induction items with
  | nil =>
    intro used st stats
    simp [finalizeLoop]
  | cons a rest ih =>
    intro used st stats
    unfold finalizeLoop
    dsimp only
    split
    · next h =>
      have := ih used st { stats with resolve_fail_drop := stats.resolve_fail_drop + 1 }
      dsimp only at this
      simp only [List.length_cons]
      omega
    · next h =>
      split
      · have := ih (used + 1) ((resolve net a.google_link st).2)
          { stats with resolve_fail_drop := stats.resolve_fail_drop + 1 }
        dsimp only at this
        simp only [List.length_cons]
        omega
      · split
        · have := ih (used + 1) ((resolve net a.google_link st).2)
            { stats with non_article_url_drop := stats.non_article_url_drop + 1 }
          dsimp only at this
          simp only [List.length_cons]
          omega
        · have := ih (used + 1) ((resolve net a.google_link st).2)
            { stats with resolved_ok := stats.resolved_ok + 1 }
          dsimp only at this
          simp only [List.length_cons]
          omega

theorem length_insertDescBy {α κ : Type} (key : α → κ) (lt : κ → κ → Bool) (x : α) :
    ∀ (l : List α), (insertDescBy key lt x l).length = l.length + 1 := by
  intro l
  induction l with
  | nil => rfl
  | cons y ys ih =>
    by_cases hlt : lt (key x) (key y) = true
    · simp [insertDescBy, if_pos hlt, ih]
    · simp [insertDescBy, if_neg hlt]

theorem length_sortDescBy {α κ : Type} (key : α → κ) (lt : κ → κ → Bool) :
    ∀ (l : List α), (sortDescBy key lt l).length = l.length := by
  intro l
  induction l with
  | nil => rfl
  | cons x xs ih => simp [sortDescBy, length_insertDescBy, ih]

theorem length_updateAssoc :
    ∀ (l : List (PyStr × Item)) (k : PyStr) (v : Item),
    (updateAssoc l k v).length ≤ l.length + 1 := by
  intro l
  induction l with
  | nil => intro k v; simp [updateAssoc]
  | cons p rest ih =>
    intro k v
    by_cases hp : (p.1 == k) = true
    · simp [updateAssoc, hp]
    · simp only [updateAssoc, if_neg hp, List.length_cons]
      have := ih k v
      omega

theorem length_dedupFold :
    ∀ (out : List Item) (acc : List (PyStr × Item)),
    (out.foldl (fun acc a => updateAssoc acc (stable_id a.title (a.link.getD [])) a)
      acc).length ≤ acc.length + out.length := by
  intro out
  induction out with
  | nil => intro acc; simp
  | cons a rest ih =>
    intro acc
    rw [List.foldl_cons]
    have h1 := ih (updateAssoc acc (stable_id a.title (a.link.getD [])) a)
    have h2 := length_updateAssoc acc (stable_id a.title (a.link.getD [])) a
    simp only [List.length_cons]
    omega

theorem length_dedupBySid (out : List Item) : (dedupBySid out).length ≤ out.length := by
  unfold dedupBySid
  rw [List.length_map]
  have := length_dedupFold out []
  simpa using this

/-- C10: finalize_items attempts at most budget resolver invocations (the
ghost call counter grows by at most budget); once the budget is exhausted,
every remaining input item is dropped and counted as a resolution failure
without any resolve call, so the emitted list agrees with running on just
the first budget items and never holds more than budget items; the budgets
main passes are 120 for the general track and 80 for the topic track. -/
theorem C10_budget (net : PyStr → NetOutcome) (items : List Item) (budget : Nat)
    (st : RState) :
    (finalize_items net items budget st).2.2.calls ≤ st.calls + budget ∧
    (finalize_items net items budget st).1.length ≤ budget ∧
    (finalize_items net items budget st).1 = (finalize_items net (items.take budget) budget st).1 ∧
    items.length - budget ≤ (finalize_items net items budget st).2.1.resolve_fail_drop ∧
    RESOLVE_BUDGET_GENERAL = 120 ∧ RESOLVE_BUDGET_NEXON = 80 := by
  refine ⟨?_, ?_, ?_, ?_, rfl, rfl⟩
  · have := finalizeLoop_calls net budget items 0 st finalStats0
    simpa using this
  · have h1 := finalizeLoop_length net budget items 0 st finalStats0
    have h2 := length_dedupBySid (finalizeLoop net budget items 0 st finalStats0).1
    unfold finalize_items
    dsimp only
    rw [length_sortDescBy]
    omega
  · unfold finalize_items
    dsimp only
    rw [finalizeLoop_take net budget items 0 st finalStats0]
    simp
  · have := finalizeLoop_fail net budget items 0 st finalStats0
    rw [show finalStats0.resolve_fail_drop = 0 from rfl] at this
    show items.length - budget ≤
      (finalizeLoop net budget items 0 st finalStats0).2.1.resolve_fail_drop
    omega

/-- Network outcome of the aggregator counterexample: the redirect attempt
raises and the html body embeds a google-host URL that contains a target
site name as a substring. -/
def netW : PyStr → NetOutcome :=
  fun _ => ⟨none, some (pstr "A https://news.google.com/read/inven.co.kr B")⟩

/-- Input item of the aggregator counterexample run. -/
def itemW2 : Item :=
  { track := pstr "general", keyword := pstr "투자", press := pstr "NEWS",
    title := pstr "T", google_link := pstr "https://news.google.com/rss/articles/x",
    link := none, published_dt := 500000, published := pstr "p", snippet := [] }

/-- C1 (code-bug evaluation): with a redirect failure and an html body
containing the URL https://news.google.com/read/inven.co.kr, the resolver
returns that google-host URL (it contains the target-site substring
inven.co.kr and passes is_valid_article_url, which never checks the host
against the aggregator), and finalize_items emits the item with it as the
canonical link, although _is_google_url classifies it as an aggregator
URL — contradicting the stated invariant and the file's own header. -/
theorem C1_code_bug_eval :
    (finalize_items netW [itemW2] RESOLVE_BUDGET_GENERAL rstate0).1.map (fun a => a.link) =
      [some (pstr "https://news.google.com/read/inven.co.kr")] ∧
    is_google_url (pstr "https://news.google.com/read/inven.co.kr") = true := by
  constructor
  · decide
  · decide

/-- Line boundaries of Python str.splitlines. -/
def isLineBoundary (c : Char) : Bool :=
  c = '\n' || c = '\r' || c = '\x0b' || c = '\x0c' || c = '\x1c' || c = '\x1d' ||
  c = '\x1e' || c = '\x85' || c = '\u2028' || c = '\u2029'

/-- Fuelled scan of Python str.splitlines(True): each line keeps its
boundary character (a carriage-return newline pair counts as one
boundary); a trailing segment without a boundary is its own line. -/
def splitlinesF : Nat → PyStr → List PyStr
  | 0, _ => []
  | _ + 1, [] => []
  | fuel + 1, s =>
    let line := s.takeWhile (fun c => !(isLineBoundary c))
    match s.dropWhile (fun c => !(isLineBoundary c)) with
    | [] => [line]
    | b :: rest =>
      if b = '\r' ∧ rest.head? = some '\n'
      then (line ++ [b, '\n']) :: splitlinesF fuel rest.tail
      else (line ++ [b]) :: splitlinesF fuel rest

def pySplitlinesKeep (s : PyStr) : List PyStr := splitlinesF s.length s

/-- SLACK_TEXT_LIMIT from src/main.py. -/
def SLACK_TEXT_LIMIT : Nat := 3500

/-- The chunking loop of build_messages: lines accumulate into the current
chunk; when the next line would push the chunk past the limit the chunk is
flushed first (even when empty); the final chunk is kept only when it
strips to something nonempty. -/
def chunkLoop (limit : Nat) : List PyStr → PyStr → List PyStr
  | [], chunk => if pyStrip chunk = [] then [] else [chunk]
  | line :: rest, chunk =>
    if limit < chunk.length + line.length then chunk :: chunkLoop limit rest line
    else chunkLoop limit rest (chunk ++ line)

/-- The message chunking of build_messages from src/main.py applied to the
full text. -/
def chunkMessages (full : PyStr) : List PyStr :=
  chunkLoop SLACK_TEXT_LIMIT (pySplitlinesKeep full) []

/-- GENERAL_SEND_LIMIT from src/main.py. -/
def GENERAL_SEND_LIMIT : Nat := 50

/-- NEXON_SEND_LIMIT from src/main.py. -/
def NEXON_SEND_LIMIT : Nat := 5

/-- The ranking key of the nexon subsection (the tuple of the sorted
call). -/
def nexonKey (a : Item) : Nat × Int := (nexon_score a.title a.snippet, a.published_dt)

/-- Lexicographic strict order on the nexon ranking tuples, as Python
compares them. -/
def tupLt (p q : Nat × Int) : Bool := decide (p.1 < q.1 ∨ (p.1 = q.1 ∧ p.2 < q.2))

/-- The items rendered in the nexon subsection of build_messages: the
entity-gate filter, then the stable descending sort on (score, publish
time), then the top-5 cap of the rendering loop. -/
def nexonSectionItems (nexon : List Item) : List Item :=
  (sortDescBy nexonKey tupLt
    (nexon.filter (fun a => contains_nexon a.title a.snippet))).take NEXON_SEND_LIMIT

/-- The fmt helper of build_messages. -/
def fmtItem (a : Item) : PyStr :=
  let sn := if a.snippet ≠ [] then pstr "\n    - " ++ a.snippet else []
  pstr "▶ *[" ++ a.press ++ pstr "]* <" ++ a.link.getD [] ++ pstr "|" ++ a.title ++
  pstr "> (" ++ a.published ++ pstr ")" ++ sn ++ pstr "\n"

/-- One stats line of the header of build_messages. -/
def statsLine (name : PyStr) (rss : FetchStats) (fin : FinalStats) : PyStr :=
  pstr "- " ++ name ++ pstr ": feeds=" ++ natDigits rss.feeds_called ++
  pstr ", seen=" ++ natDigits rss.entries_seen ++
  pstr ", added=" ++ natDigits rss.added ++
  pstr ", hint_drop=" ++ natDigits rss.hint_drop ++
  pstr ", window_drop=" ++ natDigits rss.window_drop ++
  pstr ", resolved_ok=" ++ natDigits fin.resolved_ok ++
  pstr ", resolve_fail_drop=" ++ natDigits fin.resolve_fail_drop ++
  pstr ", url_drop=" ++ natDigits fin.non_article_url_drop ++ pstr "\n"

/-- The full text assembled by build_messages before chunking. -/
def buildFullText (label : PyStr) (general nexon : List Item)
    (g_rss n_rss : FetchStats) (g_fin n_fin : FinalStats) : PyStr :=
  let header :=
    pstr "## 📰 주요 게임업계 뉴스 브리핑\n- 범위: " ++ label ++ pstr "\n" ++
    statsLine (pstr "general") g_rss g_fin ++
    statsLine (pstr "nexon") n_rss n_fin ++ pstr "\n"
  let generalBody :=
    if general = [] then pstr "- 해당 범위에서 뉴스가 없습니다.\n"
    else ((general.take GENERAL_SEND_LIMIT).map fmtItem).flatten
  let nexonSorted := sortDescBy nexonKey tupLt
    (nexon.filter (fun a => contains_nexon a.title a.snippet))
  let nexonBody :=
    if nexonSorted = [] then pstr "- 해당 범위에서 넥슨 관련 주요 뉴스를 찾지 못했습니다.\n"
    else ((nexonSorted.take NEXON_SEND_LIMIT).map fmtItem).flatten
  header ++ pstr "### 🌐 주요 게임업계 뉴스\n" ++ generalBody ++
  pstr "\n---\n### 🏢 넥슨 관련 주요 뉴스 (Top 5)\n" ++ nexonBody

/-- Model of build_messages from src/main.py: assemble the header, the
general section and the nexon section, then chunk at line boundaries. -/
def build_messages (label : PyStr) (general nexon : List Item)
    (g_rss n_rss : FetchStats) (g_fin n_fin : FinalStats) : List PyStr :=
  chunkMessages (buildFullText label general nexon g_rss n_rss g_fin n_fin)

theorem splitlinesF_flatten : ∀ (fuel : Nat) (s : PyStr), s.length ≤ fuel →
    (splitlinesF fuel s).flatten = s := by
  intro fuel
  induction fuel with
  | zero =>
    intro s h
    have : s = [] := by cases s <;> simp_all
    subst this
    rfl
  | succ fuel ih =>
    intro s h
    cases s with
    | nil => rfl
    | cons c cs =>
      have hsplit := List.takeWhile_append_dropWhile
        (p := fun c => !(isLineBoundary c)) (l := c :: cs)
      simp only [splitlinesF]
      cases hd : List.dropWhile (fun c => !(isLineBoundary c)) (c :: cs) with
      | nil =>
        rw [hd, List.append_nil] at hsplit
        dsimp only
        simpa using hsplit
      | cons b rest =>
        rw [hd] at hsplit
        have hlen : (List.takeWhile (fun c => !(isLineBoundary c)) (c :: cs)).length +
            (b :: rest).length = (c :: cs).length := by
          rw [← List.length_append, hsplit]
        dsimp only
        split
        · next hb =>
          obtain ⟨hb1, hb2⟩ := hb
          have hrest : rest = '\n' :: rest.tail := by
            cases rest with
            | nil => simp at hb2
            | cons x xs =>
              simp at hb2
              rw [hb2]
              rfl
          have htl : rest.tail.length ≤ fuel := by
            rw [hrest] at hlen
            simp only [List.length_cons] at hlen h
            omega
          rw [List.flatten_cons, ih rest.tail htl]
          conv_rhs => rw [← hsplit]
          rw [hb1, hrest]
          simp
        · have hrl : rest.length ≤ fuel := by
            simp only [List.length_cons] at hlen h
            omega
          rw [List.flatten_cons, ih rest hrl]
          conv_rhs => rw [← hsplit]
          simp

theorem pySplitlinesKeep_flatten (s : PyStr) : (pySplitlinesKeep s).flatten = s :=
  splitlinesF_flatten s.length s le_rfl

theorem chunkLoop_flatten (limit : Nat) :
    ∀ (lines : List PyStr) (chunk : PyStr),
    ∃ t : PyStr, pyStrip t = [] ∧
      (chunkLoop limit lines chunk).flatten ++ t = chunk ++ lines.flatten := by
  intro lines
  induction lines with
  | nil =>
    intro chunk
    by_cases hs : pyStrip chunk = []
    · exact ⟨chunk, hs, by simp [chunkLoop, hs]⟩
    · refine ⟨[], rfl, ?_⟩
      simp [chunkLoop, hs]
  | cons line rest ih =>
    intro chunk
    simp only [chunkLoop]
    split
    · obtain ⟨t, ht, hjoin⟩ := ih line
      refine ⟨t, ht, ?_⟩
      simp only [List.flatten_cons]
      rw [List.append_assoc, hjoin]
    · obtain ⟨t, ht, hjoin⟩ := ih (chunk ++ line)
      refine ⟨t, ht, ?_⟩
      rw [hjoin]
      simp

theorem chunkLoop_groups (limit : Nat) :
    ∀ (lines : List PyStr) (pre : List PyStr),
    ∃ gs : List (List PyStr), gs.flatten = pre ++ lines ∧
      (chunkLoop limit lines pre.flatten = gs.map List.flatten ∨
       ∃ (gs1 : List (List PyStr)) (g : List PyStr), gs = gs1 ++ [g] ∧
         chunkLoop limit lines pre.flatten = gs1.map List.flatten ∧
         pyStrip g.flatten = []) := by
  intro lines
  induction lines with
  | nil =>
    intro pre
    refine ⟨[pre], by simp, ?_⟩
    by_cases hs : pyStrip pre.flatten = []
    · exact Or.inr ⟨[], pre, by simp, by simp [chunkLoop, hs], hs⟩
    · exact Or.inl (by simp [chunkLoop, hs])
  | cons line rest ih =>
    intro pre
    simp only [chunkLoop]
    split
    · obtain ⟨gs, hgs, hcase⟩ := ih [line]
      rcases hcase with hL | ⟨gs1, g, hsplit, hchunks, hstrip⟩
      · refine ⟨pre :: gs, by simp [hgs], Or.inl ?_⟩
        simp only [List.map_cons]
        rw [show List.flatten [line] = line from by simp] at hL
        rw [hL]
      · refine ⟨pre :: gs, by simp [hgs], Or.inr ⟨pre :: gs1, g, by simp [hsplit], ?_, hstrip⟩⟩
        simp only [List.map_cons]
        rw [show List.flatten [line] = line from by simp] at hchunks
        rw [hchunks]
    · obtain ⟨gs, hgs, hcase⟩ := ih (pre ++ [line])
      have hflat : (pre ++ [line]).flatten = pre.flatten ++ line := by simp
      rw [hflat] at hcase
      refine ⟨gs, by rw [hgs]; simp, hcase⟩

theorem chunkLoop_bounded (limit : Nat) :
    ∀ (lines : List PyStr) (chunk : PyStr),
    (∀ line ∈ lines, line.length ≤ limit) → chunk.length ≤ limit →
    ∀ c ∈ chunkLoop limit lines chunk, c.length ≤ limit := by
  intro lines
  induction lines with
  | nil =>
    intro chunk _ hc c hmem
    simp only [chunkLoop] at hmem
    split at hmem
    · simp at hmem
    · simp at hmem
      rw [hmem]
      exact hc
  | cons line rest ih =>
    intro chunk hlines hc c hmem
    have hline : line.length ≤ limit := hlines line (by simp)
    have hrest : ∀ l ∈ rest, l.length ≤ limit := fun l hl => hlines l (by simp [hl])
    simp only [chunkLoop] at hmem
    split at hmem
    · rcases List.mem_cons.mp hmem with h1 | h2
      · rw [h1]; exact hc
      · exact ih line hrest hline c h2
    · next hnf =>
      exact ih (chunk ++ line) hrest (by simp; omega) c hmem

theorem chunkLoop_ne_nil (limit : Nat) :
    ∀ (lines : List PyStr) (chunk : PyStr),
    pyStrip (chunk ++ lines.flatten) ≠ [] → chunkLoop limit lines chunk ≠ [] := by
  intro lines
  induction lines with
  | nil =>
    intro chunk h
    simp only [List.flatten_nil, List.append_nil] at h
    simp only [chunkLoop]
    rw [if_neg h]
    simp
  | cons line rest ih =>
    intro chunk h
    simp only [chunkLoop]
    split
    · simp
    · refine ih (chunk ++ line) ?_
      simp only [List.flatten_cons] at h
      simpa [List.append_assoc] using h

theorem takeWhile_append_all {α : Type} {p : α → Bool} :
    ∀ (a rest : List α), (∀ c ∈ a, p c = true) →
      (a ++ rest).takeWhile p = a ++ rest.takeWhile p := by
  intro a rest
  induction a with
  | nil => intro _; simp
  | cons c cs ih =>
    intro h
    rw [List.cons_append, List.takeWhile_cons_of_pos (h c (by simp)),
      ih (fun x hx => h x (by simp [hx])), List.cons_append]

theorem dropWhile_append_all {α : Type} {p : α → Bool} :
    ∀ (a rest : List α), (∀ c ∈ a, p c = true) →
      (a ++ rest).dropWhile p = rest.dropWhile p := by
  intro a rest
  induction a with
  | nil => intro _; simp
  | cons c cs ih =>
    intro h
    rw [List.cons_append, List.dropWhile_cons_of_pos (h c (by simp))]
    exact ih (fun x hx => h x (by simp [hx]))

theorem dropWhile_nil_of_all {α : Type} {p : α → Bool} : ∀ (l : List α),
    (∀ x ∈ l, p x = true) → List.dropWhile p l = [] := by
  intro l
  induction l with
  | nil => intro _; rfl
  | cons a as ih =>
    intro h
    rw [List.dropWhile_cons, if_pos (h a (by simp))]
    exact ih (fun x hx => h x (by simp [hx]))

theorem all_of_dropWhile_nil {α : Type} {p : α → Bool} : ∀ {l : List α},
    List.dropWhile p l = [] → ∀ x ∈ l, p x = true := by
  intro l
  induction l with
  | nil => intro _ x hx; simp at hx
  | cons a as ih =>
    intro h x hx
    rw [List.dropWhile_cons] at h
    by_cases ha : p a = true
    · rw [if_pos ha] at h
      rcases List.mem_cons.mp hx with rfl | hx2
      · exact ha
      · exact ih h x hx2
    · rw [if_neg ha] at h
      simp at h

/-- A string starting with a non-whitespace character does not strip to
empty. -/
theorem pyStrip_ne_nil_of_head {c : Char} {t : PyStr} (hc : isPySpace c = false) :
    pyStrip (c :: t) ≠ [] := by
  intro h
  rw [show pyStrip (c :: t) = dropTrailingWs ((c :: t).dropWhile isPySpace) from rfl] at h
  rw [List.dropWhile_cons, if_neg (by simp [hc])] at h
  rw [show dropTrailingWs (c :: t) = ((c :: t).reverse.dropWhile isPySpace).reverse from rfl] at h
  have h2 : List.dropWhile isPySpace (c :: t).reverse = [] := by
    have h3 := congrArg List.reverse h
    rwa [List.reverse_reverse, List.reverse_nil] at h3
  have h3 := all_of_dropWhile_nil h2 c (by simp)
  simp [hc] at h3

/-- splitlinesF does not depend on its fuel once the fuel covers the
string length. -/
theorem splitlinesF_congr : ∀ (n m : Nat) (s : PyStr), s.length ≤ n → s.length ≤ m →
    splitlinesF n s = splitlinesF m s := by
  intro n
  induction n with
  | zero =>
    intro m s hn _
    have hs : s = [] := by cases s <;> simp_all
    subst hs
    cases m <;> rfl
  | succ n ih =>
    intro m s hn hm
    cases s with
    | nil => cases m <;> rfl
    | cons c cs =>
      cases m with
      | zero => simp at hm
      | succ m =>
        have hsplit := List.takeWhile_append_dropWhile
          (p := fun c => !(isLineBoundary c)) (l := c :: cs)
        simp only [splitlinesF]
        cases hd : List.dropWhile (fun c => !(isLineBoundary c)) (c :: cs) with
        | nil => rfl
        | cons b rest =>
          rw [hd] at hsplit
          have hlen : (List.takeWhile (fun c => !(isLineBoundary c)) (c :: cs)).length +
              (b :: rest).length = (c :: cs).length := by
            rw [← List.length_append, hsplit]
          have htl : rest.tail.length ≤ rest.length := by
            cases rest <;> simp
          have h1 : rest.length ≤ n := by
            simp only [List.length_cons] at hlen hn
            omega
          have h2 : rest.length ≤ m := by
            simp only [List.length_cons] at hlen hm
            omega
          dsimp only
          by_cases hb : b = '\r' ∧ rest.head? = some '\n'
          · rw [if_pos hb, if_pos hb, ih m rest.tail (le_trans htl h1) (le_trans htl h2)]
          · rw [if_neg hb, if_neg hb, ih m rest h1 h2]

/-- One full line of the splitlines scan: a boundary-free prefix followed
by a newline is split off as one kept line. -/
theorem splitlinesF_line (fuel : Nat) (a body : PyStr)
    (ha : ∀ c ∈ a, isLineBoundary c = false) :
    splitlinesF (fuel + 1) (a ++ '\n' :: body) = (a ++ ['\n']) :: splitlinesF fuel body := by
  have hpa : ∀ c ∈ a, (fun c => !(isLineBoundary c)) c = true := by
    intro c hc
    simp [ha c hc]
  cases a with
  | nil =>
    rw [List.nil_append]
    simp only [splitlinesF]
    rw [List.takeWhile_cons_of_neg (by decide), List.dropWhile_cons_of_neg (by decide)]
    dsimp only
    rw [if_neg (fun h => absurd h.1 (by decide))]
  | cons c cs =>
    rw [List.cons_append]
    simp only [splitlinesF]
    rw [← List.cons_append c cs ('\n' :: body)]
    rw [takeWhile_append_all (c :: cs) ('\n' :: body) hpa,
      dropWhile_append_all (c :: cs) ('\n' :: body) hpa]
    rw [List.takeWhile_cons_of_neg (by decide), List.dropWhile_cons_of_neg (by decide)]
    dsimp only
    rw [if_neg (fun h => absurd h.1 (by decide))]
    simp

theorem pySplitlinesKeep_line (a body : PyStr)
    (ha : ∀ c ∈ a, isLineBoundary c = false) :
    pySplitlinesKeep (a ++ '\n' :: body) = (a ++ ['\n']) :: pySplitlinesKeep body := by
  have hl : (a ++ '\n' :: body).length = a.length + body.length + 1 := by
    rw [List.length_append, List.length_cons]
    omega
  show splitlinesF (a ++ '\n' :: body).length (a ++ '\n' :: body) = _
  rw [hl, splitlinesF_line (a.length + body.length) a body ha]
  rw [splitlinesF_congr (a.length + body.length) body.length body (by omega) le_rfl]
  rfl

/-- A nonempty string without line boundaries is a single line. -/
theorem pySplitlinesKeep_noBoundary (l : PyStr) (hne : l ≠ [])
    (h : ∀ c ∈ l, isLineBoundary c = false) :
    pySplitlinesKeep l = [l] := by
  cases l with
  | nil => exact absurd rfl hne
  | cons c cs =>
    have hall : ∀ x ∈ c :: cs, (fun c => !(isLineBoundary c)) x = true := by
      intro x hx
      simp [h x hx]
    have hd := dropWhile_nil_of_all (p := fun c => !(isLineBoundary c)) (c :: cs) hall
    have ht : List.takeWhile (fun c => !(isLineBoundary c)) (c :: cs) = c :: cs := by
      have hsplit := List.takeWhile_append_dropWhile
        (p := fun c => !(isLineBoundary c)) (l := c :: cs)
      rw [hd, List.append_nil] at hsplit
      exact hsplit
    show splitlinesF (c :: cs).length (c :: cs) = [c :: cs]
    rw [List.length_cons]
    simp only [splitlinesF]
    rw [hd]
    dsimp only
    rw [ht]

theorem chunkLoop_cons (limit : Nat) (line : PyStr) (rest : List PyStr) (chunk : PyStr) :
    chunkLoop limit (line :: rest) chunk =
      if limit < chunk.length + line.length then chunk :: chunkLoop limit rest line
      else chunkLoop limit rest (chunk ++ line) := by
  simp only [chunkLoop]

theorem chunkLoop_nil (limit : Nat) (chunk : PyStr) :
    chunkLoop limit [] chunk = if pyStrip chunk = [] then [] else [chunk] := by
  simp only [chunkLoop]

theorem flatten_map_flatten {α : Type} : ∀ gs : List (List (List α)),
    (gs.map List.flatten).flatten = gs.flatten.flatten := by
  intro gs
  induction gs with
  | nil => rfl
  | cons g gl ih =>
    simp only [List.map_cons, List.flatten_cons, List.flatten_append, ih]

theorem flatten_length_le (L : Nat) : ∀ chunks : List PyStr,
    (∀ c ∈ chunks, c.length ≤ L) → chunks.flatten.length ≤ chunks.length * L := by
  intro chunks
  induction chunks with
  | nil => intro _; simp
  | cons c cs ih =>
    intro h
    simp only [List.flatten_cons, List.length_append, List.length_cons]
    calc c.length + cs.flatten.length ≤ L + cs.length * L :=
          Nat.add_le_add (h c (by simp)) (ih (fun x hx => h x (by simp [hx])))
      _ = (cs.length + 1) * L := by rw [Nat.succ_mul, Nat.add_comm]

theorem length_flatten_replicate (n : Nat) (l : PyStr) :
    ((List.replicate n l).flatten).length = n * l.length := by
  induction n with
  | zero => simp
  | succ n ih =>
    rw [List.replicate_succ, List.flatten_cons, List.length_append, ih,
      Nat.succ_mul, Nat.add_comm]

/-- One line of the 9000-character chunking example: ninety-nine letters
and a newline. -/
def line100 : PyStr := List.replicate 99 'a' ++ ['\n']

/-- The 9000-character body of the chunking example: ninety lines of one
hundred characters each. -/
def body9000 : PyStr := (List.replicate 90 line100).flatten

theorem line100_length : line100.length = 100 := by
  rw [show line100 = List.replicate 99 'a' ++ ['\n'] from rfl,
    List.length_append, List.length_replicate]
  decide

theorem splitlines_rep_line : ∀ n : Nat,
    pySplitlinesKeep ((List.replicate n line100).flatten) = List.replicate n line100 := by
  intro n
  induction n with
  | zero => rfl
  | succ n ih =>
    have hdecomp : (List.replicate (n + 1) line100).flatten =
        List.replicate 99 'a' ++ '\n' :: (List.replicate n line100).flatten := by
      rw [List.replicate_succ, List.flatten_cons,
        show line100 = List.replicate 99 'a' ++ ['\n'] from rfl, List.append_assoc]
      rfl
    rw [hdecomp, pySplitlinesKeep_line (List.replicate 99 'a') _
      (fun c hc => by rw [List.eq_of_mem_replicate hc]; decide), ih, List.replicate_succ]
    rfl

theorem body9000_length : body9000.length = 9000 := by
  have h := length_flatten_replicate 90 line100
  rw [line100_length] at h
  exact h

theorem body9000_lines_short : ∀ line ∈ pySplitlinesKeep body9000, line.length < 200 := by
  intro line hl
  rw [show pySplitlinesKeep body9000 = List.replicate 90 line100 from
    splitlines_rep_line 90] at hl
  rw [List.eq_of_mem_replicate hl, line100_length]
  decide

theorem body9000_chunks_bounded :
    ∀ c ∈ chunkMessages body9000, c.length ≤ SLACK_TEXT_LIMIT := by
  intro c hc
  refine chunkLoop_bounded SLACK_TEXT_LIMIT (pySplitlinesKeep body9000) [] ?_ (by simp) c hc
  intro line hl
  have h1 := body9000_lines_short line hl
  have h2 : (200 : Nat) ≤ SLACK_TEXT_LIMIT := by decide
  omega

theorem body9000_chunks_flatten : (chunkMessages body9000).flatten = body9000 := by
  obtain ⟨gs, hgs, hcase⟩ := chunkLoop_groups SLACK_TEXT_LIMIT (pySplitlinesKeep body9000) []
  rw [List.nil_append] at hgs
  have hcm : chunkMessages body9000 =
      chunkLoop SLACK_TEXT_LIMIT (pySplitlinesKeep body9000)
        (List.flatten ([] : List PyStr)) := rfl
  rcases hcase with hL | ⟨gs1, g, hsp, hchunks, hstrip⟩
  · rw [hcm, hL, flatten_map_flatten, hgs, pySplitlinesKeep_flatten]
  · have hgnil : g.flatten = [] := by
      cases hg : g with
      | nil => rfl
      | cons g0 grest =>
        exfalso
        have hg_gs : g ∈ gs := by
          rw [hsp]
          exact List.mem_append_right _ (by simp)
        have hg0_g : g0 ∈ g := by rw [hg]; simp
        have hmem : g0 ∈ gs.flatten := List.mem_flatten.mpr ⟨g, hg_gs, hg0_g⟩
        rw [hgs, show pySplitlinesKeep body9000 = List.replicate 90 line100 from
          splitlines_rep_line 90] at hmem
        have hg0 : g0 = line100 := List.eq_of_mem_replicate hmem
        have hne : pyStrip g.flatten ≠ [] := by
          rw [hg, List.flatten_cons, hg0,
            show line100 = 'a' :: (List.replicate 98 'a' ++ ['\n']) from rfl,
            List.cons_append]
          exact pyStrip_ne_nil_of_head (by decide)
        exact hne hstrip
    rw [hcm, hchunks, flatten_map_flatten]
    have h2 : gs1.flatten.flatten ++ g.flatten = body9000 := by
      rw [← List.flatten_append]
      rw [show gs1.flatten ++ g = (gs1 ++ [g]).flatten from by simp]
      rw [← hsp, hgs, pySplitlinesKeep_flatten]
    rw [hgnil, List.append_nil] at h2
    exact h2

theorem body9000_chunks_count : 3 ≤ (chunkMessages body9000).length := by
  have hle := flatten_length_le SLACK_TEXT_LIMIT (chunkMessages body9000) body9000_chunks_bounded
  rw [body9000_chunks_flatten, body9000_length] at hle
  rw [show SLACK_TEXT_LIMIT = 3500 from rfl] at hle
  omega

/-- C4 (counterexample): the claim asserts that every produced chunk is at
most 3500 characters and that concatenating the chunks reproduces the body
exactly; a single 3501-character line yields a chunk longer than the
limit, and a body ending in a whitespace-only tail chunk loses that tail
(the final chunk is dropped when it strips to empty). -/
theorem C4_counterexample :
    (∃ c ∈ chunkMessages (List.replicate 3501 'a'), SLACK_TEXT_LIMIT < c.length) ∧
    (chunkMessages (List.replicate 3500 'a' ++ ['\n', '\n'])).flatten ≠
      List.replicate 3500 'a' ++ ['\n', '\n'] := by
  have hne : List.replicate 3501 'a' ≠ ([] : PyStr) := by
    intro h
    have h2 := congrArg List.length h
    rw [List.length_replicate, List.length_nil] at h2
    exact absurd h2 (by decide)
  have hsp1 : pySplitlinesKeep (List.replicate 3501 'a') = [List.replicate 3501 'a'] :=
    pySplitlinesKeep_noBoundary _ hne
      (fun c hc => by rw [List.eq_of_mem_replicate hc]; decide)
  have hchunks1 : chunkMessages (List.replicate 3501 'a') = [[], List.replicate 3501 'a'] := by
    show chunkLoop SLACK_TEXT_LIMIT (pySplitlinesKeep (List.replicate 3501 'a')) [] = _
    rw [hsp1]
    have h1 : SLACK_TEXT_LIMIT < ([] : PyStr).length + (List.replicate 3501 'a').length := by
      rw [List.length_nil, List.length_replicate]
      decide
    have h2 : pyStrip (List.replicate 3501 'a') ≠ [] := by
      rw [show (3501 : Nat) = 3500 + 1 from rfl, List.replicate_succ]
      exact pyStrip_ne_nil_of_head (by decide)
    rw [chunkLoop_cons, if_pos h1, chunkLoop_nil, if_neg h2]
  have hsp2 : pySplitlinesKeep (List.replicate 3500 'a' ++ ['\n', '\n']) =
      [List.replicate 3500 'a' ++ ['\n'], ['\n']] := by
    rw [pySplitlinesKeep_line (List.replicate 3500 'a') ['\n']
      (fun c hc => by rw [List.eq_of_mem_replicate hc]; decide)]
    rw [show pySplitlinesKeep ['\n'] = [['\n']] from by decide]
  have hchunks2 : chunkMessages (List.replicate 3500 'a' ++ ['\n', '\n']) =
      [[], List.replicate 3500 'a' ++ ['\n']] := by
    show chunkLoop SLACK_TEXT_LIMIT
      (pySplitlinesKeep (List.replicate 3500 'a' ++ ['\n', '\n'])) [] = _
    rw [hsp2]
    have h1 : SLACK_TEXT_LIMIT <
        ([] : PyStr).length + (List.replicate 3500 'a' ++ ['\n']).length := by
      rw [List.length_nil, List.length_append, List.length_replicate]
      decide
    have h2 : SLACK_TEXT_LIMIT <
        (List.replicate 3500 'a' ++ ['\n']).length + (['\n'] : PyStr).length := by
      rw [List.length_append, List.length_replicate]
      decide
    have h3 : pyStrip (['\n'] : PyStr) = [] := by decide
    rw [chunkLoop_cons, if_pos h1, chunkLoop_cons, if_pos h2, chunkLoop_nil, if_pos h3]
  refine ⟨⟨List.replicate 3501 'a', ?_, ?_⟩, ?_⟩
  · rw [hchunks1]
    exact List.mem_cons_of_mem _ (List.mem_cons_self _ _)
  · rw [List.length_replicate]
    decide
  · rw [hchunks2, show ([[], List.replicate 3500 'a' ++ ['\n']] : List PyStr).flatten =
      List.replicate 3500 'a' ++ ['\n'] from by
        rw [List.flatten_cons, List.flatten_cons, List.flatten_nil, List.append_nil,
          List.nil_append]]
    intro h
    have h2 := congrArg List.length h
    simp only [List.length_append, List.length_replicate, List.length_cons,
      List.length_nil] at h2
    omega

/-- C4 (amended): build_messages splits only at whole-line boundaries (the
chunk list is a consecutive grouping of the splitlines decomposition, up
to one dropped whitespace-only tail group); concatenating the chunks
reproduces the body up to that whitespace-only tail; every chunk respects
the 3500 limit provided every line does; and the 9000-character body of
ninety lines, each under 200 characters, yields at least three chunks,
all within the limit, whose concatenation is exactly the body. -/
theorem C4_amended :
    (∀ full : PyStr, ∃ gs : List (List PyStr), gs.flatten = pySplitlinesKeep full ∧
      (chunkMessages full = gs.map List.flatten ∨
       ∃ (gs1 : List (List PyStr)) (g : List PyStr), gs = gs1 ++ [g] ∧
         chunkMessages full = gs1.map List.flatten ∧ pyStrip g.flatten = [])) ∧
    (∀ full : PyStr, ∃ t : PyStr, pyStrip t = [] ∧ (chunkMessages full).flatten ++ t = full) ∧
    (∀ full : PyStr, (∀ line ∈ pySplitlinesKeep full, line.length ≤ SLACK_TEXT_LIMIT) →
      ∀ c ∈ chunkMessages full, c.length ≤ SLACK_TEXT_LIMIT) ∧
    body9000.length = 9000 ∧
    (∀ line ∈ pySplitlinesKeep body9000, line.length < 200) ∧
    3 ≤ (chunkMessages body9000).length ∧
    (∀ c ∈ chunkMessages body9000, c.length ≤ SLACK_TEXT_LIMIT) ∧
    (chunkMessages body9000).flatten = body9000 := by
  refine ⟨?_, ?_, ?_, body9000_length, body9000_lines_short, body9000_chunks_count,
    body9000_chunks_bounded, body9000_chunks_flatten⟩
  · intro full
    have h := chunkLoop_groups SLACK_TEXT_LIMIT (pySplitlinesKeep full) []
    simpa using h
  · intro full
    have h := chunkLoop_flatten SLACK_TEXT_LIMIT (pySplitlinesKeep full) []
    obtain ⟨t, ht, hj⟩ := h
    refine ⟨t, ht, ?_⟩
    rw [show chunkMessages full = chunkLoop SLACK_TEXT_LIMIT (pySplitlinesKeep full) [] from rfl,
      hj, List.nil_append, pySplitlinesKeep_flatten]
  · intro full hlines
    exact chunkLoop_bounded SLACK_TEXT_LIMIT (pySplitlinesKeep full) [] hlines (by simp)

/-- Closed witness for C4 (amended): the bounded-chunks part applied to a
small concrete body, with its line-length hypothesis evaluated. -/
theorem C4_amended_witness :
    (∀ line ∈ pySplitlinesKeep (pstr "hi\nthere\n"), line.length ≤ SLACK_TEXT_LIMIT) ∧
    (∀ c ∈ chunkMessages (pstr "hi\nthere\n"), c.length ≤ SLACK_TEXT_LIMIT) := by
  constructor
  · decide
  · exact C4_amended.2.2.1 (pstr "hi\nthere\n") (by decide)

theorem tupLt_asym : ∀ p q : Nat × Int, tupLt p q = true → tupLt q p = false := by
  intro p q h
  simp only [tupLt, decide_eq_true_eq] at h
  simp only [tupLt, decide_eq_false_iff_not]
  omega

theorem tupLt_negTrans : ∀ p q r : Nat × Int,
    tupLt p q = false → tupLt q r = false → tupLt p r = false := by
  intro p q r h1 h2
  simp only [tupLt, decide_eq_false_iff_not] at h1 h2 ⊢
  omega

theorem pairwise_insertDescBy {α κ : Type} (key : α → κ) (lt : κ → κ → Bool)
    (htrans : ∀ a b c, lt a b = false → lt b c = false → lt a c = false)
    (hasym : ∀ a b, lt a b = true → lt b a = false) (x : α) :
    ∀ l, List.Pairwise (fun a b => lt (key a) (key b) = false) l →
      List.Pairwise (fun a b => lt (key a) (key b) = false) (insertDescBy key lt x l) := by
  intro l
  induction l with
  | nil => intro _; simp [insertDescBy]
  | cons y ys ih =>
    intro hp
    rw [List.pairwise_cons] at hp
    obtain ⟨hy, hys⟩ := hp
    by_cases hlt : lt (key x) (key y) = true
    · rw [show insertDescBy key lt x (y :: ys) = y :: insertDescBy key lt x ys from by
        simp [insertDescBy, hlt]]
      rw [List.pairwise_cons]
      refine ⟨?_, ih hys⟩
      intro z hz
      rcases (mem_insertDescBy key lt x ys z).mp hz with rfl | hzys
      · exact hasym _ _ hlt
      · exact hy z hzys
    · rw [show insertDescBy key lt x (y :: ys) = x :: y :: ys from by
        simp [insertDescBy, hlt]]
      have hxy : lt (key x) (key y) = false := by
        cases hxx : lt (key x) (key y)
        · rfl
        · exact absurd hxx hlt
      rw [List.pairwise_cons]
      refine ⟨?_, List.pairwise_cons.mpr ⟨hy, hys⟩⟩
      intro z hz
      rcases List.mem_cons.mp hz with rfl | hzys
      · exact hxy
      · exact htrans _ _ _ hxy (hy z hzys)

theorem pairwise_sortDescBy {α κ : Type} (key : α → κ) (lt : κ → κ → Bool)
    (htrans : ∀ a b c, lt a b = false → lt b c = false → lt a c = false)
    (hasym : ∀ a b, lt a b = true → lt b a = false) :
    ∀ l, List.Pairwise (fun a b => lt (key a) (key b) = false) (sortDescBy key lt l) := by
  intro l
  induction l with
  | nil => simp [sortDescBy]
  | cons x xs ih => exact pairwise_insertDescBy key lt htrans hasym x _ ih

/-- C8: every article placed in the nexon subsection passes the entity
gate (a case-insensitive variant match in title or snippet), regardless of
keyword provenance — in particular any item titled 오늘의 게임 순위 with
snippet 엔씨소프트 신작 발표 is excluded; the subsection is ordered by
score descending then publish time descending (no earlier element is
tuple-smaller than a later one) and holds at most five items. -/
theorem C8_nexon_subsection (nexon : List Item) :
    (∀ a ∈ nexonSectionItems nexon, contains_nexon a.title a.snippet = true) ∧
    (nexonSectionItems nexon).length ≤ 5 ∧
    List.Pairwise (fun a b => tupLt (nexonKey a) (nexonKey b) = false)
      (nexonSectionItems nexon) ∧
    (∀ a : Item, a.title = pstr "오늘의 게임 순위" → a.snippet = pstr "엔씨소프트 신작 발표" →
      a ∉ nexonSectionItems nexon) := by
  have hgate : ∀ a ∈ nexonSectionItems nexon, contains_nexon a.title a.snippet = true := by
    intro a ha
    have h1 := List.mem_of_mem_take ha
    rw [mem_sortDescBy] at h1
    exact (List.mem_filter.mp h1).2
  refine ⟨hgate, ?_, ?_, ?_⟩
  · exact le_trans (List.length_take_le _ _) le_rfl
  · exact List.Pairwise.sublist (List.take_sublist _ _)
      (pairwise_sortDescBy nexonKey tupLt tupLt_negTrans tupLt_asym _)
  · intro a h1 h2 hmem
    have hg := hgate a hmem
    rw [h1, h2] at hg
    exact absurd hg (by decide)

/-- Concrete item for the nexon-subsection witness. -/
def nexonItemW : Item :=
  { track := pstr "nexon", keyword := pstr "투자", press := pstr "NEWS",
    title := pstr "넥슨 투자 유치", google_link := pstr "g", link := some (pstr "l"),
    published_dt := 100, published := pstr "p", snippet := pstr "지분 인수 보도" }

/-- Closed witness for C8: the subsection of a one-item list contains the
item, the theorem certifies its entity gate, and the cap holds. -/
theorem C8_nexon_subsection_witness :
    nexonItemW ∈ nexonSectionItems [nexonItemW] ∧
    contains_nexon nexonItemW.title nexonItemW.snippet = true ∧
    (nexonSectionItems [nexonItemW]).length ≤ 5 := by
  have hm : nexonItemW ∈ nexonSectionItems [nexonItemW] := by decide
  have h := C8_nexon_subsection [nexonItemW]
  exact ⟨hm, h.1 nexonItemW hm, h.2.1⟩

/-- PRIMARY_KEYWORDS from src/main.py. -/
def PRIMARY_KEYWORDS : List PyStr :=
  [pstr "신작", pstr "성과", pstr "호재", pstr "악재", pstr "리스크", pstr "정책",
   pstr "업데이트", pstr "출시", pstr "매출", pstr "순위", pstr "소송", pstr "규제",
   pstr "CBT", pstr "OBT", pstr "인수", pstr "투자", pstr "M&A"]

/-- KEYWORD_BATCH_PRIMARY from src/main.py. -/
def KEYWORD_BATCH_PRIMARY : Nat := 10

/-- KEYWORD_BATCH_FALLBACK from src/main.py. -/
def KEYWORD_BATCH_FALLBACK : Nat := 18

/-- MAX_ENTRIES_PER_FEED from src/main.py. -/
def MAX_ENTRIES_PER_FEED : Nat := 30

/-- MAX_ENTRIES_PER_NEXON_FEED from src/main.py. -/
def MAX_ENTRIES_PER_NEXON_FEED : Nat := 20

/-- Outward activity of one run: a search-feed HTTP request of a track
and keyword, a Slack webhook POST, and the RuntimeError raise site of the
missing webhook variable.  Resolver traffic happens between the feed
events and the send stage and is not itemised in the trace. -/
inductive MEvent where
  | feedGet (track kw : PyStr)
  | slackPost (msg : PyStr)
  | configError
deriving DecidableEq

/-- Environment of a run: SLACK_WEBHOOK_URL as environ.get returns it
(none when the variable is absent), the current KST time and the holiday
table. -/
structure RunEnv where
  webhook : Option PyStr
  now : KDateTime
  krHolidays : Option (List Int)

/-- Truthiness of the webhook value, the not SLACK_WEBHOOK_URL test of
send_to_slack. -/
def webhookOkOf : Option PyStr → Bool
  | none => false
  | some s => decide (s ≠ [])

/-- The send loop of main with the webhook check of send_to_slack: the
first send raises the RuntimeError when the webhook is falsy; otherwise
every chunk is posted in order. -/
def sendStage : Bool → List PyStr → List MEvent × Except PyStr Unit
  | _, [] => ([], Except.ok ())
  | true, m :: rest =>
    let out := sendStage true rest
    (MEvent.slackPost m :: out.1, out.2)
  | false, _ :: _ =>
    ([MEvent.configError],
     Except.error (pstr "환경변수 SLACK_WEBHOOK_URL이 설정되어 있지 않습니다."))

/-- The general fetch of main: the primary batch of ten keywords, redone
with the eighteen-keyword fallback batch when fewer than ten items
arrive; the boolean records whether the fallback ran. -/
def mainGeneralFetch (pdt : PyStr → Option Int) (ttk : TimeTuple → Option Int)
    (feedFor : PyStr → PyStr → Except Unit (List Entry)) (start_i end_i : Int) :
    (List Item × FetchStats) × Bool :=
  let g1 := fetch_track pdt ttk (pstr "general")
    (PRIMARY_KEYWORDS.take KEYWORD_BATCH_PRIMARY) MAX_ENTRIES_PER_FEED
    (feedFor (pstr "general")) start_i end_i
  if g1.1.length < 10 then
    (fetch_track pdt ttk (pstr "general")
      (PRIMARY_KEYWORDS.take KEYWORD_BATCH_FALLBACK) MAX_ENTRIES_PER_FEED
      (feedFor (pstr "general")) start_i end_i, true)
  else (g1, false)

/-- The feed requests of one run in order: one HTTP GET per keyword of
the general batch, of the fallback batch when it ran, and of the full
keyword list of the nexon track. -/
def mainFeedEvents (fallback : Bool) : List MEvent :=
  (PRIMARY_KEYWORDS.take KEYWORD_BATCH_PRIMARY).map (MEvent.feedGet (pstr "general")) ++
  (if fallback then
    (PRIMARY_KEYWORDS.take KEYWORD_BATCH_FALLBACK).map (MEvent.feedGet (pstr "general"))
   else []) ++
  PRIMARY_KEYWORDS.map (MEvent.feedGet (pstr "nexon"))

/-- The collection and formatting pipeline of main up to the message
list: window, general fetch with fallback, nexon fetch, the two finalize
passes sharing one resolver state, build_messages. -/
def mainMessages (pdt : PyStr → Option Int) (ttk : TimeTuple → Option Int)
    (feedFor : PyStr → PyStr → Except Unit (List Entry)) (net : PyStr → NetOutcome)
    (env : RunEnv) : List PyStr :=
  let w := compute_window_kst env.now env.krHolidays
  let start_i : Int := w.1.day * 86400 + w.1.sec
  let end_i : Int := w.2.day * 86400 + w.2.sec
  let g2 := (mainGeneralFetch pdt ttk feedFor start_i end_i).1
  let nx := fetch_track pdt ttk (pstr "nexon") PRIMARY_KEYWORDS MAX_ENTRIES_PER_NEXON_FEED
    (feedFor (pstr "nexon")) start_i end_i
  let gf := finalize_items net g2.1 RESOLVE_BUDGET_GENERAL rstate0
  let nf := finalize_items net nx.1 RESOLVE_BUDGET_NEXON gf.2.2
  build_messages (windowLabel w.1 w.2) gf.1 nf.1 g2.2 nx.2 gf.2.1 nf.2.1

/-- Model of main from src/main.py, returning the trace of outward
activity and the run result: the feeds are always fetched and the items
resolved before the send stage consults the webhook variable. -/
def main_run (pdt : PyStr → Option Int) (ttk : TimeTuple → Option Int)
    (feedFor : PyStr → PyStr → Except Unit (List Entry)) (net : PyStr → NetOutcome)
    (env : RunEnv) : List MEvent × Except PyStr Unit :=
  let w := compute_window_kst env.now env.krHolidays
  let start_i : Int := w.1.day * 86400 + w.1.sec
  let end_i : Int := w.2.day * 86400 + w.2.sec
  let fallback := (mainGeneralFetch pdt ttk feedFor start_i end_i).2
  let send := sendStage (webhookOkOf env.webhook) (mainMessages pdt ttk feedFor net env)
  (mainFeedEvents fallback ++ send.1, send.2)

theorem sendStage_false (msgs : List PyStr) (h : msgs ≠ []) :
    sendStage false msgs =
      ([MEvent.configError],
       Except.error (pstr "환경변수 SLACK_WEBHOOK_URL이 설정되어 있지 않습니다.")) := by
  cases msgs with
  | nil => exact absurd rfl h
  | cons m rest => rfl

/-- The assembled digest text always opens with the header's hash mark. -/
theorem buildFullText_head (label : PyStr) (g n : List Item) (a b : FetchStats)
    (c d : FinalStats) : ∃ t, buildFullText label g n a b c d = '#' :: t := by
  unfold buildFullText
  dsimp only
  rw [show (pstr "## 📰 주요 게임업계 뉴스 브리핑\n- 범위: ") =
      '#' :: (pstr "# 📰 주요 게임업계 뉴스 브리핑\n- 범위: ") from rfl,
    List.cons_append, List.cons_append]
  exact ⟨_, rfl⟩

/-- build_messages always yields at least one chunk: the full text starts
with a non-whitespace character, so the final chunk never strips away. -/
theorem build_messages_ne_nil (label : PyStr) (g n : List Item) (a b : FetchStats)
    (c d : FinalStats) : build_messages label g n a b c d ≠ [] := by
  obtain ⟨t, ht⟩ := buildFullText_head label g n a b c d
  show chunkLoop SLACK_TEXT_LIMIT (pySplitlinesKeep (buildFullText label g n a b c d)) [] ≠ []
  refine chunkLoop_ne_nil SLACK_TEXT_LIMIT _ [] ?_
  rw [List.nil_append, pySplitlinesKeep_flatten, ht]
  exact pyStrip_ne_nil_of_head (by decide)

theorem mainFeedEvents_feedGet (fb : Bool) :
    ∀ ev ∈ mainFeedEvents fb, ∃ track kw, ev = MEvent.feedGet track kw := by
  intro ev h
  unfold mainFeedEvents at h
  rw [List.mem_append, List.mem_append] at h
  rcases h with (h | h) | h
  · obtain ⟨x, _, hx⟩ := List.mem_map.mp h
    exact ⟨_, _, hx.symm⟩
  · cases fb with
    | false =>
      rw [if_neg (by simp)] at h
      simp at h
    | true =>
      rw [if_pos rfl] at h
      obtain ⟨x, _, hx⟩ := List.mem_map.mp h
      exact ⟨_, _, hx.symm⟩
  · obtain ⟨x, _, hx⟩ := List.mem_map.mp h
    exact ⟨_, _, hx.symm⟩

/-- Concrete oracles of the C3 run: every feed request fails (the code
skips the keyword and continues), dates never parse, the resolver network
yields nothing, the webhook variable is absent, and now is a Monday
midnight of the KST day-number timeline. -/
def pdtW0 : PyStr → Option Int := fun _ => none

def ttkW0 : TimeTuple → Option Int := fun _ => none

def feedForW0 : PyStr → PyStr → Except Unit (List Entry) := fun _ _ => Except.error ()

def netW0 : PyStr → NetOutcome := fun _ => ⟨none, none⟩

def envW0 : RunEnv := ⟨none, ⟨4, 0⟩, none⟩

/-- C3 (counterexample): the claim asserts that a missing
SLACK_WEBHOOK_URL raises before any network activity; in the code the
feed fetches all run first — the trace of a webhook-less run opens with
the general-track request of the first keyword, still contains the
nexon-track requests, and only its last event is the configuration
error raised by send_to_slack. -/
theorem C3_counterexample :
    (main_run pdtW0 ttkW0 feedForW0 netW0 envW0).1.head? =
      some (MEvent.feedGet (pstr "general") (pstr "신작")) ∧
    MEvent.feedGet (pstr "nexon") (pstr "M&A") ∈ (main_run pdtW0 ttkW0 feedForW0 netW0 envW0).1 ∧
    (main_run pdtW0 ttkW0 feedForW0 netW0 envW0).1.getLast? = some MEvent.configError := by
  refine ⟨?_, ?_, ?_⟩ <;> decide

/-- C3 (amended): when SLACK_WEBHOOK_URL is absent or empty the run does
fail with the distinct RuntimeError message of send_to_slack and posts
nothing to Slack — but only after all collection work: the trace starts
with the ten general-track feed requests and the configuration error is
its last event, so the error is not raised before network activity. -/
theorem C3_amended (pdt : PyStr → Option Int) (ttk : TimeTuple → Option Int)
    (feedFor : PyStr → PyStr → Except Unit (List Entry)) (net : PyStr → NetOutcome)
    (env : RunEnv) (hw : env.webhook = none ∨ env.webhook = some []) :
    (main_run pdt ttk feedFor net env).2 =
      Except.error (pstr "환경변수 SLACK_WEBHOOK_URL이 설정되어 있지 않습니다.") ∧
    (∀ m : PyStr, MEvent.slackPost m ∉ (main_run pdt ttk feedFor net env).1) ∧
    ((main_run pdt ttk feedFor net env).1).take KEYWORD_BATCH_PRIMARY =
      (PRIMARY_KEYWORDS.take KEYWORD_BATCH_PRIMARY).map (MEvent.feedGet (pstr "general")) ∧
    ((main_run pdt ttk feedFor net env).1).getLast? = some MEvent.configError := by
  have hok : webhookOkOf env.webhook = false := by
    rcases hw with h | h <;> rw [h] <;> rfl
  have hne : mainMessages pdt ttk feedFor net env ≠ [] :=
    build_messages_ne_nil _ _ _ _ _ _ _
  obtain ⟨fb, htr⟩ : ∃ fb : Bool, (main_run pdt ttk feedFor net env).1 =
      mainFeedEvents fb ++
      (sendStage (webhookOkOf env.webhook) (mainMessages pdt ttk feedFor net env)).1 :=
    ⟨_, rfl⟩
  have h2 : (main_run pdt ttk feedFor net env).2 =
      (sendStage (webhookOkOf env.webhook) (mainMessages pdt ttk feedFor net env)).2 := rfl
  refine ⟨?_, ?_, ?_, ?_⟩
  · rw [h2, hok, sendStage_false _ hne]
  · intro m hmem
    rw [htr, hok, sendStage_false _ hne] at hmem
    dsimp only at hmem
    rw [List.mem_append] at hmem
    rcases hmem with h | h
    · obtain ⟨tr, kw, hx⟩ := mainFeedEvents_feedGet fb _ h
      exact MEvent.noConfusion hx
    · rw [List.mem_singleton] at h
      exact MEvent.noConfusion h
  · rw [htr, hok, sendStage_false _ hne]
    dsimp only
    simp only [mainFeedEvents]
    rw [List.append_assoc, List.append_assoc, List.take_left' (by decide)]
  · rw [htr, hok, sendStage_false _ hne]
    dsimp only
    exact List.getLast?_concat _

/-- Closed witness for C3 (amended): the theorem applied to the concrete
webhook-less run. -/
theorem C3_amended_witness :
    (main_run pdtW0 ttkW0 feedForW0 netW0 envW0).2 =
      Except.error (pstr "환경변수 SLACK_WEBHOOK_URL이 설정되어 있지 않습니다.") ∧
    (main_run pdtW0 ttkW0 feedForW0 netW0 envW0).1.getLast? = some MEvent.configError :=
  ⟨(C3_amended pdtW0 ttkW0 feedForW0 netW0 envW0 (Or.inl rfl)).1,
   (C3_amended pdtW0 ttkW0 feedForW0 netW0 envW0 (Or.inl rfl)).2.2.2⟩

end GameNewsBot
